import Mathlib

set_option maxHeartbeats 1000000

/-!
Shallow embedding of the spell-check program (src/spellcheck.py).

Strings are modelled as `List Char`.  The embedding follows the source:
`Trie.insert`, `Trie.has_word`, `Trie.generate_word`, and `SpellCheck.check`
with its recursive `_helper` traversal.
-/

/-- The vowel set used by the regexes `[aeiou]` / `[^aeiou]` in the source. -/
def isVowel (c : Char) : Bool :=
  c = 'a' || c = 'e' || c = 'i' || c = 'o' || c = 'u'

/-- ASCII whitespace stripped by Python's `str.strip()`. -/
def isSpaceChar (c : Char) : Bool :=
  c = ' ' || c = '\t' || c = '\n' || c = '\r' || c = '\x0b' || c = '\x0c'

/-- ASCII lower-casing of one character, as Python 2 `str.lower()` does. -/
def lowerChar (c : Char) : Char :=
  if 'A' ≤ c && c ≤ 'Z' then Char.ofNat (c.toNat + 32) else c

/-- `word.lower()` on a byte string: lower-case each character. -/
def toLowerAscii (s : List Char) : List Char := s.map lowerChar

/-- `word.strip()`: drop leading and trailing ASCII whitespace. -/
def stripStr (s : List Char) : List Char :=
  ((s.dropWhile isSpaceChar).reverse.dropWhile isSpaceChar).reverse

/-- `word.lower().strip()` from `SpellCheck.check`. -/
def normWord (s : List Char) : List Char := stripStr (toLowerAscii s)

/-- `len(re.findall('[aeiou]', word))`: number of vowel occurrences. -/
def vowelCount (s : List Char) : Nat := (s.filter isVowel).length

/-- `re.sub(r'([^aeiou])\1+', r'\1', word)`: each maximal run of two or more
identical non-vowel characters is collapsed to a single occurrence.  Since all
characters of a run are equal, keeping the last character of each such run
produces exactly the replacement string of the regex. -/
def collC : List Char → List Char
  | [] => []
  | [c] => [c]
  | c :: d :: rest =>
    if c = d && !isVowel c then collC (d :: rest) else c :: collC (d :: rest)

/-- `re.sub(r'([aeiou])\1+', r'\1\1', word)`: each maximal run of two or more
identical vowels is collapsed to exactly two occurrences (keeping the last two
characters of the run, which equals the regex replacement). -/
def collV : List Char → List Char
  | [] => []
  | [c] => [c]
  | [c, d] => [c, d]
  | c :: d :: e :: rest =>
    if c = d && (d = e && isVowel c) then collV (d :: e :: rest)
    else c :: collV (d :: e :: rest)

/-- The two-pass repeat-collapse normalization of `SpellCheck.check`. -/
def collapse (s : List Char) : List Char := collV (collC s)

/-- No two adjacent equal non-vowel characters. -/
def okC : List Char → Prop
  | [] => True
  | [_] => True
  | c :: d :: rest => (c = d → isVowel c = true) ∧ okC (d :: rest)

/-- No three adjacent equal vowels. -/
def okV : List Char → Prop
  | [] => True
  | [_] => True
  | [_, _] => True
  | c :: d :: e :: rest => ¬(c = d ∧ d = e ∧ isVowel c = true) ∧ okV (d :: e :: rest)

theorem okC_tail {c : Char} {l : List Char} (h : okC (c :: l)) : okC l := by
  cases l with
  | nil => trivial
  | cons d rest => exact h.2

theorem collC_cons_head (d : Char) (rest : List Char) :
    ∃ tl, collC (d :: rest) = d :: tl := by
  induction rest with
  | nil => exact ⟨[], rfl⟩
  | cons e rest' ih =>
    rw [collC]
    split
    next h =>
      simp only [Bool.and_eq_true, Bool.not_eq_true', decide_eq_true_eq] at h
      obtain ⟨rfl, _⟩ := h
      exact ih
    next h => exact ⟨collC (e :: rest'), rfl⟩

theorem okC_collC (s : List Char) : okC (collC s) := by
  induction s with
  | nil => trivial
  | cons c rest ih =>
    cases rest with
    | nil => trivial
    | cons d rest' =>
      rw [collC]
      split
      next h => exact ih
      next h =>
        obtain ⟨tl, htl⟩ := collC_cons_head d rest'
        rw [htl]
        refine ⟨?_, ?_⟩
        · intro hcd
          cases hb : isVowel c with
          | true => rfl
          | false => exact absurd (by subst hcd; simp [hb]) h
        · rw [← htl]; exact ih

theorem collC_of_okC {s : List Char} (h : okC s) : collC s = s := by
  induction s with
  | nil => rfl
  | cons c rest ih =>
    cases rest with
    | nil => rfl
    | cons d rest' =>
      rw [collC]
      split
      next hb =>
        simp only [Bool.and_eq_true, Bool.not_eq_true', decide_eq_true_eq] at hb
        exact absurd (h.1 hb.1) (by simp [hb.2])
      next hb => rw [ih h.2]

theorem collV_cons_head (d : Char) (l : List Char) :
    ∃ tl, collV (d :: l) = d :: tl := by
  induction l generalizing d with
  | nil => exact ⟨[], rfl⟩
  | cons e l' ih =>
    cases l' with
    | nil => exact ⟨[e], rfl⟩
    | cons f l'' =>
      rw [collV]
      split
      next h =>
        simp only [Bool.and_eq_true, decide_eq_true_eq] at h
        obtain ⟨rfl, _, _⟩ := h
        exact ih d
      next h => exact ⟨collV (e :: f :: l''), rfl⟩

theorem collV_cons2 (c d : Char) (l : List Char) :
    ∃ tl, collV (c :: d :: l) = c :: d :: tl := by
  induction l generalizing c d with
  | nil => exact ⟨[], rfl⟩
  | cons e l' ih =>
    rw [collV]
    split
    next h =>
      simp only [Bool.and_eq_true, decide_eq_true_eq] at h
      obtain ⟨rfl, rfl, _⟩ := h
      exact ih c c
    next h =>
      obtain ⟨tl, htl⟩ := collV_cons_head d (e :: l')
      exact ⟨tl, by rw [htl]⟩

theorem okC_collV {s : List Char} (h : okC s) : okC (collV s) := by
  induction s with
  | nil => trivial
  | cons c rest ih =>
    cases rest with
    | nil => trivial
    | cons d rest' =>
      cases rest' with
      | nil => exact h
      | cons e rest'' =>
        rw [collV]
        split
        next hb => exact ih (okC_tail h)
        next hb =>
          obtain ⟨tl, htl⟩ := collV_cons_head d (e :: rest'')
          rw [htl]
          refine ⟨h.1, ?_⟩
          rw [← htl]
          exact ih (okC_tail h)

theorem okV_collV (s : List Char) : okV (collV s) := by
  induction s with
  | nil => trivial
  | cons c rest ih =>
    cases rest with
    | nil => trivial
    | cons d rest' =>
      cases rest' with
      | nil => trivial
      | cons e rest'' =>
        rw [collV]
        split
        next hb => exact ih
        next hb =>
          obtain ⟨tl, htl⟩ := collV_cons2 d e rest''
          rw [htl]
          refine ⟨?_, ?_⟩
          · rintro ⟨rfl, rfl, hv⟩
            exact hb (by simp [hv])
          · rw [← htl]
            exact ih

theorem collV_of_okV {s : List Char} (h : okV s) : collV s = s := by
  induction s with
  | nil => rfl
  | cons c rest ih =>
    cases rest with
    | nil => rfl
    | cons d rest' =>
      cases rest' with
      | nil => rfl
      | cons e rest'' =>
        rw [collV]
        split
        next hb =>
          simp only [Bool.and_eq_true, decide_eq_true_eq] at hb
          exact absurd ⟨hb.1, hb.2.1, hb.2.2⟩ h.1
        next hb => rw [ih h.2]

/-- **C7.** The two-pass repeat-collapse normalization (non-vowel runs to one
occurrence, then vowel runs to exactly two occurrences) is idempotent. -/
theorem collapse_idempotent (s : List Char) : collapse (collapse s) = collapse s := by
  unfold collapse
  have h2 : okC (collV (collC s)) := okC_collV (okC_collC s)
  have h3 : okV (collV (collC s)) := okV_collV (collC s)
  rw [collC_of_okC h2, collV_of_okV h3]

/-!
## Levenshtein distance

`lev` is the textbook Levenshtein recursion (match cost 0; insertion, deletion
and substitution cost 1).  The relation `ED xs ys n` means: there is an
alignment transforming `xs` into `ys` using `n` single-character edits; `lev`
computes the minimum such `n`.
-/

def lev : List Char → List Char → Nat
  | [], ys => ys.length
  | _ :: xs, [] => xs.length + 1
  | x :: xs, y :: ys =>
    if x = y then lev xs ys
    else 1 + min (lev xs (y :: ys)) (min (lev (x :: xs) ys) (lev xs ys))

theorem lev_nil_left (ys : List Char) : lev [] ys = ys.length := by
  cases ys <;> simp [lev]

theorem lev_nil_right (xs : List Char) : lev xs [] = xs.length := by
  cases xs <;> simp [lev]

inductive ED : List Char → List Char → Nat → Prop where
  | nil : ED [] [] 0
  | eq (c : Char) {xs ys : List Char} {n : Nat} : ED xs ys n → ED (c :: xs) (c :: ys) n
  | sub (a b : Char) {xs ys : List Char} {n : Nat} : ED xs ys n → ED (a :: xs) (b :: ys) (n + 1)
  | del (a : Char) {xs ys : List Char} {n : Nat} : ED xs ys n → ED (a :: xs) ys (n + 1)
  | ins (b : Char) {xs ys : List Char} {n : Nat} : ED xs ys n → ED xs (b :: ys) (n + 1)

theorem ED_nil_left (ys : List Char) : ED [] ys ys.length := by
  induction ys with
  | nil => exact ED.nil
  | cons y ys ih => exact ED.ins y ih

theorem ED_nil_right (xs : List Char) : ED xs [] xs.length := by
  induction xs with
  | nil => exact ED.nil
  | cons x xs ih => exact ED.del x ih

/-- The four standard one-step bounds on `lev`, proved simultaneously by strong
induction on the total length. -/
theorem levQ (N : Nat) : ∀ xs ys : List Char, xs.length + ys.length ≤ N →
    (∀ a : Char, lev (a :: xs) ys ≤ 1 + lev xs ys) ∧
    (∀ b : Char, lev xs (b :: ys) ≤ 1 + lev xs ys) ∧
    (∀ a : Char, lev xs ys ≤ 1 + lev (a :: xs) ys) ∧
    (∀ b : Char, lev xs ys ≤ 1 + lev xs (b :: ys)) := by
  induction N with
  | zero =>
    intro xs ys hlen
    have hx : xs = [] := by cases xs <;> simp_all
    have hy : ys = [] := by cases ys <;> simp_all
    subst hx; subst hy
    refine ⟨fun a => ?_, fun b => ?_, fun a => ?_, fun b => ?_⟩ <;> simp [lev]
  | succ N ih =>
    intro xs ys hlen
    refine ⟨fun a => ?_, fun b => ?_, fun a => ?_, fun b => ?_⟩
    · -- lev (a :: xs) ys ≤ 1 + lev xs ys
      cases ys with
      | nil => simp [lev_nil_left, lev_nil_right, lev]; omega
      | cons y ys' =>
        rw [lev]
        split
        next h =>
          subst h
          have h4 := (ih xs ys' (by simp at hlen ⊢; omega)).2.2.2 a
          omega
        next h =>
          have h1 : min (lev xs (y :: ys')) (min (lev (a :: xs) ys') (lev xs ys')) ≤
              lev xs (y :: ys') := min_le_left _ _
          omega
    · -- lev xs (b :: ys) ≤ 1 + lev xs ys
      cases xs with
      | nil => simp [lev_nil_left, lev]; omega
      | cons x xs' =>
        rw [lev]
        split
        next h =>
          subst h
          have h3 := (ih xs' ys (by simp at hlen ⊢; omega)).2.2.1 x
          omega
        next h =>
          have h1 : min (lev xs' (b :: ys)) (min (lev (x :: xs') ys) (lev xs' ys)) ≤
              min (lev (x :: xs') ys) (lev xs' ys) := min_le_right _ _
          have h2 : min (lev (x :: xs') ys) (lev xs' ys) ≤ lev (x :: xs') ys := min_le_left _ _
          omega
    · -- lev xs ys ≤ 1 + lev (a :: xs) ys
      cases ys with
      | nil => simp [lev_nil_left, lev_nil_right, lev]; omega
      | cons y ys' =>
        conv_rhs => rw [lev]
        split
        next h =>
          subst h
          have h2 := (ih xs ys' (by simp at hlen ⊢; omega)).2.1 a
          omega
        next h =>
          have hq2 := (ih xs ys' (by simp at hlen ⊢; omega)).2.1 y
          have hq3 := (ih xs ys' (by simp at hlen ⊢; omega)).2.2.1 a
          omega
    · -- lev xs ys ≤ 1 + lev xs (b :: ys)
      cases xs with
      | nil => simp [lev_nil_left, lev]; omega
      | cons x xs' =>
        conv_rhs => rw [lev]
        split
        next h =>
          subst h
          have h1 := (ih xs' ys (by simp at hlen ⊢; omega)).1 x
          omega
        next h =>
          have hq1 := (ih xs' ys (by simp at hlen ⊢; omega)).1 x
          have hq4 := (ih xs' ys (by simp at hlen ⊢; omega)).2.2.2 b
          omega

theorem lev_cons_left_le (a : Char) (xs ys : List Char) :
    lev (a :: xs) ys ≤ 1 + lev xs ys :=
  (levQ (xs.length + ys.length) xs ys le_rfl).1 a

theorem lev_cons_right_le (b : Char) (xs ys : List Char) :
    lev xs (b :: ys) ≤ 1 + lev xs ys :=
  (levQ (xs.length + ys.length) xs ys le_rfl).2.1 b

/-- `lev` is realised by some alignment. -/
theorem lev_ED : ∀ xs ys : List Char, ED xs ys (lev xs ys) := by
  have main : ∀ N xs ys, (xs : List Char).length + (ys : List Char).length ≤ N →
      ED xs ys (lev xs ys) := by
    intro N
    induction N with
    | zero =>
      intro xs ys hlen
      have hx : xs = [] := by cases xs <;> simp_all
      have hy : ys = [] := by cases ys <;> simp_all
      subst hx; subst hy
      rw [lev_nil_left]
      exact ED.nil
    | succ N ih =>
      intro xs ys hlen
      cases xs with
      | nil => rw [lev_nil_left]; exact ED_nil_left ys
      | cons x xs' =>
        cases ys with
        | nil => rw [lev_nil_right]; exact ED_nil_right (x :: xs')
        | cons y ys' =>
          rw [lev]
          split
          next h =>
            subst h
            exact ED.eq x (ih xs' ys' (by simp at hlen ⊢; omega))
          next h =>
            rcases Nat.le_total (lev xs' (y :: ys'))
                (min (lev (x :: xs') ys') (lev xs' ys')) with hm | hm
            · rw [min_eq_left hm, Nat.add_comm]
              exact ED.del x (ih xs' (y :: ys') (by simp at hlen ⊢; omega))
            · rw [min_eq_right hm]
              rcases Nat.le_total (lev (x :: xs') ys') (lev xs' ys') with hm2 | hm2
              · rw [min_eq_left hm2, Nat.add_comm]
                exact ED.ins y (ih (x :: xs') ys' (by simp at hlen ⊢; omega))
              · rw [min_eq_right hm2, Nat.add_comm]
                exact ED.sub x y (ih xs' ys' (by simp at hlen ⊢; omega))
  exact fun xs ys => main (xs.length + ys.length) xs ys le_rfl

/-- `lev` is a lower bound for every alignment. -/
theorem ED_lev_le {xs ys : List Char} {n : Nat} (h : ED xs ys n) : lev xs ys ≤ n := by
  induction h with
  | nil => simp [lev]
  | eq c h ih => simpa [lev] using ih
  | sub a b h ih =>
    rename_i xs' ys' n'
    rw [lev]
    split
    next => omega
    next =>
      have h1 : min (lev xs' (b :: ys')) (min (lev (a :: xs') ys') (lev xs' ys')) ≤
          lev xs' ys' := le_trans (min_le_right _ _) (min_le_right _ _)
      omega
  | del a h ih =>
    rename_i xs' ys' n'
    have := lev_cons_left_le a xs' ys'
    omega
  | ins b h ih =>
    rename_i xs' ys' n'
    have := lev_cons_right_le b xs' ys'
    omega

theorem ED_concat_eq (c : Char) {xs ys : List Char} {n : Nat} (h : ED xs ys n) :
    ED (xs ++ [c]) (ys ++ [c]) n := by
  induction h with
  | nil => exact ED.eq c ED.nil
  | eq d h ih => exact ED.eq d ih
  | sub a b h ih => exact ED.sub a b ih
  | del a h ih => exact ED.del a ih
  | ins b h ih => exact ED.ins b ih

theorem ED_concat_sub (a b : Char) {xs ys : List Char} {n : Nat} (h : ED xs ys n) :
    ED (xs ++ [a]) (ys ++ [b]) (n + 1) := by
  induction h with
  | nil => exact ED.sub a b ED.nil
  | eq d h ih => exact ED.eq d ih
  | sub p q h ih => exact ED.sub p q ih
  | del p h ih => exact ED.del p ih
  | ins q h ih => exact ED.ins q ih

theorem ED_concat_del (a : Char) {xs ys : List Char} {n : Nat} (h : ED xs ys n) :
    ED (xs ++ [a]) ys (n + 1) := by
  induction h with
  | nil => exact ED.del a ED.nil
  | eq d h ih => exact ED.eq d ih
  | sub p q h ih => exact ED.sub p q ih
  | del p h ih => exact ED.del p ih
  | ins q h ih => exact ED.ins q ih

theorem ED_concat_ins (b : Char) {xs ys : List Char} {n : Nat} (h : ED xs ys n) :
    ED xs (ys ++ [b]) (n + 1) := by
  induction h with
  | nil => exact ED.ins b ED.nil
  | eq d h ih => exact ED.eq d ih
  | sub p q h ih => exact ED.sub p q ih
  | del p h ih => exact ED.del p ih
  | ins q h ih => exact ED.ins q ih

theorem ED_reverse {xs ys : List Char} {n : Nat} (h : ED xs ys n) :
    ED xs.reverse ys.reverse n := by
  induction h with
  | nil => exact ED.nil
  | eq c h ih => simpa [List.reverse_cons] using ED_concat_eq c ih
  | sub a b h ih => simpa [List.reverse_cons] using ED_concat_sub a b ih
  | del a h ih => simpa [List.reverse_cons] using ED_concat_del a ih
  | ins b h ih => simpa [List.reverse_cons] using ED_concat_ins b ih

/-- Levenshtein distance is invariant under reversing both strings. -/
theorem lev_reverse (xs ys : List Char) : lev xs.reverse ys.reverse = lev xs ys := by
  refine le_antisymm (ED_lev_le (ED_reverse (lev_ED xs ys))) ?_
  have h := ED_lev_le (ED_reverse (lev_ED xs.reverse ys.reverse))
  simpa using h

/-- Splitting an alignment at a decomposition point of the target. -/
theorem ED_split {xs ys : List Char} {n : Nat} (h : ED xs ys n) :
    ∀ ys₁ ys₂ : List Char, ys = ys₁ ++ ys₂ →
      ∃ xs' m, xs' <:+ xs ∧ ED xs' ys₂ m ∧ m ≤ n := by
  induction h with
  | nil =>
    intro ys₁ ys₂ he
    obtain ⟨h1, h2⟩ := List.append_eq_nil.mp he.symm
    subst h2
    exact ⟨[], 0, List.suffix_rfl, ED.nil, le_rfl⟩
  | eq c h ih =>
    intro ys₁ ys₂ he
    cases ys₁ with
    | nil =>
      exact ⟨_ :: _, _, List.suffix_rfl, by rw [← List.nil_append ys₂, ← he]; exact ED.eq c h,
        le_rfl⟩
    | cons d ys₁' =>
      simp only [List.cons_append, List.cons.injEq] at he
      obtain ⟨rfl, he2⟩ := he
      obtain ⟨xs', m, hs, hed, hle⟩ := ih ys₁' ys₂ he2
      exact ⟨xs', m, hs.trans (List.suffix_cons _ _), hed, hle⟩
  | sub a b h ih =>
    intro ys₁ ys₂ he
    cases ys₁ with
    | nil =>
      exact ⟨_ :: _, _, List.suffix_rfl, by rw [← List.nil_append ys₂, ← he]; exact ED.sub a b h,
        le_rfl⟩
    | cons d ys₁' =>
      simp only [List.cons_append, List.cons.injEq] at he
      obtain ⟨rfl, he2⟩ := he
      obtain ⟨xs', m, hs, hed, hle⟩ := ih ys₁' ys₂ he2
      exact ⟨xs', m, hs.trans (List.suffix_cons _ _), hed, by omega⟩
  | del a h ih =>
    intro ys₁ ys₂ he
    obtain ⟨xs', m, hs, hed, hle⟩ := ih ys₁ ys₂ he
    exact ⟨xs', m, hs.trans (List.suffix_cons _ _), hed, by omega⟩
  | ins b h ih =>
    intro ys₁ ys₂ he
    cases ys₁ with
    | nil =>
      exact ⟨_, _, List.suffix_rfl, by rw [← List.nil_append ys₂, ← he]; exact ED.ins b h, le_rfl⟩
    | cons d ys₁' =>
      simp only [List.cons_append, List.cons.injEq] at he
      obtain ⟨rfl, he2⟩ := he
      obtain ⟨xs', m, hs, hed, hle⟩ := ih ys₁' ys₂ he2
      exact ⟨xs', m, hs, hed, by omega⟩

/-- The pruning bound: some suffix of `xs` is at least as close to `ys₂` as
`xs` is to `ys₁ ++ ys₂`. -/
theorem lev_le_append (xs ys₁ ys₂ : List Char) :
    ∃ xs', xs' <:+ xs ∧ lev xs' ys₂ ≤ lev xs (ys₁ ++ ys₂) := by
  obtain ⟨xs', m, hs, hed, hle⟩ := ED_split (lev_ED xs (ys₁ ++ ys₂)) ys₁ ys₂ rfl
  exact ⟨xs', hs, le_trans (ED_lev_le hed) hle⟩

/-!
## The trie dictionary

`Trie` mirrors the Python class: an optional stored full word (`self.word`)
and a children mapping.  The Python `dict` is modelled as an association list
with unique keys (lookup finds the first matching key; insertion of a fresh
key appends, mirroring how the traversals enumerate the same key set).
-/

inductive Trie : Type where
  | mk (word : Option (List Char)) (children : List (Char × Trie)) : Trie

def Trie.word : Trie → Option (List Char)
  | .mk w _ => w

def Trie.children : Trie → List (Char × Trie)
  | .mk _ ch => ch

/-- `letter in self.children` / `self.children[letter]`. -/
def lookupChild : List (Char × Trie) → Char → Option Trie
  | [], _ => none
  | (c, u) :: rest, d => if c = d then some u else lookupChild rest d

/-- Rebuild the children mapping with the entry for key `d` replaced. -/
def updateChild : List (Char × Trie) → Char → Trie → List (Char × Trie)
  | [], _, _ => []
  | (c, u) :: rest, d, v =>
    if c = d then (c, v) :: rest else (c, u) :: updateChild rest d v

/-- `Trie.insert`: walk/create one child per letter of `rest`; at the end set
`self.word = full` (the whole inserted word). -/
def insertAux (full : List Char) : Trie → List Char → Trie
  | t, [] => .mk (some full) t.children
  | t, c :: rest =>
    match lookupChild t.children c with
    | some u => .mk t.word (updateChild t.children c (insertAux full u rest))
    | none => .mk t.word (t.children ++ [(c, insertAux full (.mk none []) rest)])

/-- `Trie.insert(word)` (the word-count side effect is modelled in `Dict`). -/
def Trie.insert (t : Trie) (word : List Char) : Trie := insertAux word t word

/-- `Trie.has_word`: follow the characters; `False` on a missing child, `True`
when the letters are exhausted (no terminal-marker check). -/
def Trie.has_word : Trie → List Char → Bool
  | _, [] => true
  | t, c :: rest =>
    match lookupChild t.children c with
    | none => false
    | some u => Trie.has_word u rest

/-- A dictionary built by repeated insertion starting from the empty trie. -/
def buildTrie (ws : List (List Char)) : Trie := ws.foldl Trie.insert (.mk none [])

/-- The dictionary together with the `Trie.count` word counter. -/
def Dict : Type := Trie × Nat

/-- `insert` including the `Trie.count += 1` side effect. -/
def dictInsert (d : Dict) (w : List Char) : Dict := (d.1.insert w, d.2 + 1)

theorem sizeOf_child_lt {t : Trie} {x : Char × Trie} (h : x ∈ t.children) :
    sizeOf x.2 < sizeOf t := by
  cases t with
  | mk w ch =>
    have h1 := List.sizeOf_lt_of_mem h
    cases x with
    | mk c u =>
      simp only [Trie.children] at h1
      simp only [Trie.mk.sizeOf_spec] at *
      simp only [Prod.mk.sizeOf_spec] at h1 ⊢
      omega

/-- Index selection `self.children[letters[k]]` for `generate_word`; the index
supplied is always `< (p :: ps).length`, further values clamp to the head. -/
def pickChild : (Char × Trie) → List (Char × Trie) → Nat → Char × Trie
  | p, _, 0 => p
  | p, [], _ + 1 => p
  | _, q :: rest, k + 1 => pickChild q rest k

theorem pickChild_mem : ∀ (p : Char × Trie) (ps : List (Char × Trie)) (k : Nat),
    pickChild p ps k ∈ p :: ps := by
  intro p ps
  induction ps generalizing p with
  | nil => intro k; cases k <;> simp [pickChild]
  | cons q rest ih =>
    intro k
    cases k with
    | zero => simp [pickChild]
    | succ k' =>
      have := ih q k'
      simp only [pickChild]
      exact List.mem_cons_of_mem _ this

/-- `Trie.generate_word`: while the node has children, move to a randomly
chosen child; return the stored word at the childless node reached.  The
stream `ks` supplies the successive random choices (`random.randint(0, n-1)`
is modelled as an arbitrary value reduced mod `n`). -/
def Trie.generate_word (t : Trie) (ks : Nat → Nat) (i : Nat) : Option (List Char) :=
  match hch : t.children with
  | [] => t.word
  | p :: ps => Trie.generate_word (pickChild p ps (ks i % (p :: ps).length)).2 ks (i + 1)
termination_by sizeOf t
decreasing_by
  have hmem : pickChild p ps (ks i % (p :: ps).length) ∈ t.children := by
    rw [hch]; exact pickChild_mem p ps _
  exact sizeOf_child_lt hmem

/-!
## The matcher (`SpellCheck.check` and `SpellCheck._helper`)
-/

/-- `min(curr)` on a non-empty Python list (`0` on `[]`, which never occurs). -/
def listMin : List Nat → Nat
  | [] => 0
  | [a] => a
  | a :: b :: rest => min a (listMin (b :: rest))

/-- `curr[-1]` on a non-empty Python list (`0` on `[]`, which never occurs). -/
def listLast : List Nat → Nat
  | [] => 0
  | [a] => a
  | _ :: b :: rest => listLast (b :: rest)

/-- The inner loop of `_helper`: `for i in xrange(1, n+1): ...` computing the
new DP row from the carried `curr[i-1]` (`last`) and the sliding window
`prev[i-1], prev[i]` over the previous row. -/
def rowRest (letter : Char) : Nat → List Char → List Nat → List Nat
  | _, [], _ => []
  | last, c :: cs, pPrev :: pCur :: ps =>
    (if c = letter then pPrev else min (min last pCur) pPrev + 1) ::
      rowRest letter (if c = letter then pPrev else min (min last pCur) pPrev + 1) cs
        (pCur :: ps)
  | _, _ :: _, _ => []

/-- One DP-row step of `_helper`: `curr = [prev[0]+1]` followed by the loop. -/
def nextRow (letter : Char) (wd : List Char) (prev : List Nat) : List Nat :=
  match prev with
  | [] => []
  | p0 :: _ => (p0 + 1) :: rowRest letter (p0 + 1) wd prev

/-- `SpellCheck._helper`: compute the new row; record `(trie.word, curr[-1])`
when within budget and the node's word is truthy (a non-empty string); recurse
into all children when `min(curr) <= dist`.  Discovery order: the node's own
match first, then the children in order. -/
def SpellCheck.helper (wd : List Char) (dist : Nat) : Trie → Char → List Nat →
    List ((List Char) × Nat)
  | t, letter, prev =>
    let curr := nextRow letter wd prev
    (match t.word with
      | some w => if listLast curr ≤ dist ∧ w ≠ [] then [(w, listLast curr)] else []
      | none => []) ++
    (if listMin curr ≤ dist then
      (t.children.attach.map (fun p => SpellCheck.helper wd dist p.1.2 p.1.1 curr)).flatten
    else [])
termination_by t _ _ => sizeOf t
decreasing_by
  simp_wf
  exact sizeOf_child_lt p.2

/-- The whole bounded traversal: `_helper` launched from every root child with
the initial row `range(n+1)`. -/
def rootMatches (t : Trie) (wd : List Char) (dist : Nat) : List ((List Char) × Nat) :=
  (t.children.map (fun p => SpellCheck.helper wd dist p.2 p.1 (List.range (wd.length + 1)))).flatten

/-- The `'NO SUGGESTION'` sentinel. -/
def SENTINEL : List Char := String.toList "NO SUGGESTION"

/-- The single left-to-right aggregation scan of `check`:
`for w, dist in res: if dist <= min_dist: temp.append(w); min_dist = dist`. -/
def filterLoop : List ((List Char) × Nat) → Nat → List (List Char)
  | [], _ => []
  | (w, d) :: rest, m => if d ≤ m then w :: filterLoop rest d else filterLoop rest m

/-- The selection tail of `check`: last filtered candidate is the provisional
output; after popping it, promote the first remaining candidate sharing the
input's first character, removing it from the alternates (`list.remove`
deletes the first occurrence of the value). -/
def selectOut (wd : List Char) (temp : List (List Char)) : (List Char) × List (List Char) :=
  match temp with
  | [] => (SENTINEL, [])
  | _ :: _ =>
    let out0 := temp.getLastD []
    let temp1 := temp.dropLast
    if 1 ≤ temp1.length then
      match temp1.find? (fun w => w.head? == wd.head?) with
      | some w => (w, temp1.erase w)
      | none => (out0, temp1)
    else (out0, temp1)

/-- `SpellCheck.check`.  The initial scan bound `min_dist` is
`min(res, key=lambda x: x[1])[1]` for non-empty `res` — i.e. the smallest
recorded distance; for empty `res` the loop body never runs, so the value
(Python: `inf`, here `listMin [] = 0`) is irrelevant.  The alternates are kept
as a list; the source's `', '.join` is display formatting only. -/
def SpellCheck.check (t : Trie) (input : List Char) : (List Char) × List (List Char) :=
  let word0 := normWord input
  if t.has_word word0 then (word0, [])
  else
    let wd := collapse word0
    let dist := vowelCount wd
    let res := rootMatches t wd dist
    let temp := filterLoop res (listMin (res.map Prod.snd))
    selectOut wd temp

/-!
## Association-list lemmas for the children mapping
-/

theorem lookupChild_update_self {ch : List (Char × Trie)} {d : Char} {u : Trie} (v : Trie)
    (h : lookupChild ch d = some u) : lookupChild (updateChild ch d v) d = some v := by
  induction ch with
  | nil => simp [lookupChild] at h
  | cons p rest ih =>
    cases p with
    | mk c w =>
      by_cases hc : c = d
      · simp [updateChild, lookupChild, hc]
      · simp only [lookupChild, if_neg hc] at h
        simp [updateChild, lookupChild, hc, ih h]

theorem lookupChild_update_ne {ch : List (Char × Trie)} {d e : Char} (v : Trie)
    (h : e ≠ d) : lookupChild (updateChild ch d v) e = lookupChild ch e := by
  induction ch with
  | nil => simp [updateChild]
  | cons p rest ih =>
    cases p with
    | mk c w =>
      by_cases hc : c = d
      · have hne : ¬ c = e := by rw [hc]; exact fun hh => h hh.symm
        simp [updateChild, lookupChild, hc, hne, Ne.symm h, h]
      · by_cases hce : c = e
        · simp [updateChild, lookupChild, hc, hce, h]
        · simp [updateChild, lookupChild, hc, hce, ih]

theorem updateChild_keys (ch : List (Char × Trie)) (d : Char) (v : Trie) :
    (updateChild ch d v).map Prod.fst = ch.map Prod.fst := by
  induction ch with
  | nil => rfl
  | cons p rest ih =>
    cases p with
    | mk c w =>
      by_cases hc : c = d
      · simp [updateChild, hc]
      · simp [updateChild, hc, ih]

theorem mem_updateChild {ch : List (Char × Trie)} {d : Char} {v : Trie} {x : Char × Trie}
    (h : x ∈ updateChild ch d v) : x ∈ ch ∨ x = (d, v) := by
  induction ch with
  | nil => simp [updateChild] at h
  | cons p rest ih =>
    cases p with
    | mk c w =>
      by_cases hc : c = d
      · subst hc
        simp only [updateChild, if_pos rfl] at h
        rcases List.mem_cons.mp h with h1 | h1
        · right; exact h1
        · left; exact List.mem_cons_of_mem _ h1
      · simp only [updateChild, if_neg hc] at h
        rcases List.mem_cons.mp h with h1 | h1
        · left; exact h1 ▸ List.mem_cons_self _ _
        · rcases ih h1 with h2 | h2
          · left; exact List.mem_cons_of_mem _ h2
          · right; exact h2

theorem mem_updateChild_self {ch : List (Char × Trie)} {d : Char} {u : Trie} (v : Trie)
    (h : lookupChild ch d = some u) : (d, v) ∈ updateChild ch d v := by
  induction ch with
  | nil => simp [lookupChild] at h
  | cons p rest ih =>
    cases p with
    | mk c w =>
      by_cases hc : c = d
      · subst hc
        simp [updateChild]
      · simp only [lookupChild, if_neg hc] at h
        simp only [updateChild, if_neg hc]
        exact List.mem_cons_of_mem _ (ih h)

theorem updateChild_self_eq {ch : List (Char × Trie)} {d : Char} {u : Trie}
    (h : lookupChild ch d = some u) : updateChild ch d u = ch := by
  induction ch with
  | nil => rfl
  | cons p rest ih =>
    cases p with
    | mk c w =>
      by_cases hc : c = d
      · subst hc
        rw [lookupChild, if_pos rfl] at h
        injection h with h'
        simp [updateChild, h']
      · simp only [lookupChild, if_neg hc] at h
        simp [updateChild, hc, ih h]

theorem lookupChild_append_some {ch l : List (Char × Trie)} {c : Char} {u : Trie}
    (h : lookupChild ch c = some u) : lookupChild (ch ++ l) c = some u := by
  induction ch with
  | nil => simp [lookupChild] at h
  | cons p rest ih =>
    cases p with
    | mk a w =>
      by_cases hc : a = c
      · simp only [lookupChild, if_pos hc] at h
        simp [lookupChild, hc, h]
      · simp only [lookupChild, if_neg hc] at h
        simp [lookupChild, hc, ih h]

theorem lookupChild_append_none {ch l : List (Char × Trie)} {c : Char}
    (h : lookupChild ch c = none) : lookupChild (ch ++ l) c = lookupChild l c := by
  induction ch with
  | nil => simp
  | cons p rest ih =>
    cases p with
    | mk a w =>
      by_cases hc : a = c
      · simp [lookupChild, hc] at h
      · simp only [lookupChild, if_neg hc] at h
        simp [lookupChild, hc, ih h]

theorem mem_of_lookupChild {ch : List (Char × Trie)} {c : Char} {u : Trie}
    (h : lookupChild ch c = some u) : (c, u) ∈ ch := by
  induction ch with
  | nil => simp [lookupChild] at h
  | cons p rest ih =>
    cases p with
    | mk a w =>
      by_cases hc : a = c
      · subst hc
        rw [lookupChild, if_pos rfl] at h
        injection h with h'
        simp [h']
      · simp only [lookupChild, if_neg hc] at h
        exact List.mem_cons_of_mem _ (ih h)

theorem lookupChild_of_mem_nodup {ch : List (Char × Trie)} {c : Char} {u : Trie}
    (hnd : (ch.map Prod.fst).Nodup) (h : (c, u) ∈ ch) : lookupChild ch c = some u := by
  induction ch with
  | nil => simp at h
  | cons p rest ih =>
    cases p with
    | mk a w =>
      simp only [List.map_cons, List.nodup_cons] at hnd
      rcases List.mem_cons.mp h with h1 | h1
      · injection h1 with h1a h1b
        subst h1a; subst h1b
        simp [lookupChild]
      · by_cases hc : a = c
        · subst hc
          exact absurd (List.mem_map.mpr ⟨(a, u), h1, rfl⟩) hnd.1
        · simp [lookupChild, hc, ih hnd.2 h1]

theorem lookupChild_none_not_mem {ch : List (Char × Trie)} {c : Char}
    (h : lookupChild ch c = none) {u : Trie} : (c, u) ∉ ch := by
  induction ch with
  | nil => simp
  | cons p rest ih =>
    cases p with
    | mk a w =>
      by_cases hc : a = c
      · simp [lookupChild, hc] at h
      · simp only [lookupChild, if_neg hc] at h
        intro hmem
        rcases List.mem_cons.mp hmem with h1 | h1
        · exact hc (congrArg Prod.fst h1).symm
        · exact ih h h1

/-!
## Reachability in the trie
-/

/-- `NodeAt t p u`: following the characters of `p` from `t` (through the
children mapping) reaches the node `u`. -/
inductive NodeAt : Trie → List Char → Trie → Prop where
  | refl (t : Trie) : NodeAt t [] t
  | step {t u v : Trie} {c : Char} {p : List Char} :
      lookupChild t.children c = some u → NodeAt u p v → NodeAt t (c :: p) v

theorem nodeAt_nil {t u : Trie} (h : NodeAt t [] u) : u = t := by
  cases h; rfl

theorem nodeAt_cons {t v : Trie} {c : Char} {p : List Char} (h : NodeAt t (c :: p) v) :
    ∃ u, lookupChild t.children c = some u ∧ NodeAt u p v := by
  cases h with
  | step hl hn => exact ⟨_, hl, hn⟩

/-- `has_word` holds exactly when the path exists ("following `word`'s
characters from the root never hits a missing child"). -/
theorem has_word_iff_nodeAt (t : Trie) (p : List Char) :
    t.has_word p = true ↔ ∃ u, NodeAt t p u := by
  induction p generalizing t with
  | nil => simp [Trie.has_word]; exact ⟨t, NodeAt.refl t⟩
  | cons c rest ih =>
    rw [Trie.has_word]
    cases hl : lookupChild t.children c with
    | none =>
      simp only [iff_false, Bool.false_eq_true, false_iff]
      rintro ⟨v, hv⟩
      obtain ⟨u, hu, -⟩ := nodeAt_cons hv
      rw [hl] at hu; exact Option.noConfusion hu
    | some u =>
      rw [ih u]
      constructor
      · rintro ⟨v, hv⟩; exact ⟨v, NodeAt.step hl hv⟩
      · rintro ⟨v, hv⟩
        obtain ⟨u', hu', hn⟩ := nodeAt_cons hv
        rw [hl] at hu'
        cases hu'
        exact ⟨v, hn⟩

/-!
## `insert` and `has_word`
-/

theorem children_mk (w : Option (List Char)) (ch : List (Char × Trie)) :
    (Trie.mk w ch).children = ch := rfl

theorem word_mk (w : Option (List Char)) (ch : List (Char × Trie)) :
    (Trie.mk w ch).word = w := rfl

theorem has_word_nil (t : Trie) : t.has_word [] = true := rfl

theorem has_word_empty_iff (p : List Char) :
    (Trie.mk none []).has_word p = true ↔ p = [] := by
  cases p with
  | nil => simp [Trie.has_word]
  | cons c p' => simp [Trie.has_word, children_mk, lookupChild]

/-- Inserting `rest` below a node adds exactly the paths that are a preserved
initial segment of `rest`; all previously present paths survive. -/
theorem has_word_insertAux (p : List Char) : ∀ (rest : List Char) (t : Trie)
    (full : List Char),
    (insertAux full t rest).has_word p = true ↔ (t.has_word p = true ∨ p <+: rest) := by
  induction p with
  | nil =>
    intro rest t full
    simp [has_word_nil, List.nil_prefix]
  | cons c p' ih =>
    intro rest t full
    cases rest with
    | nil =>
      rw [insertAux]
      constructor
      · intro h
        left
        simp only [Trie.has_word, children_mk] at h ⊢
        exact h
      · intro h
        rcases h with h | h
        · simp only [Trie.has_word, children_mk] at h ⊢
          exact h
        · exact absurd (List.prefix_nil.mp h) (by simp)
    | cons d rest' =>
      rw [insertAux]
      cases hl : lookupChild t.children d with
      | some u =>
        simp only
        by_cases hc : c = d
        · subst hc
          have hls : lookupChild (updateChild t.children c (insertAux full u rest')) c =
              some (insertAux full u rest') := lookupChild_update_self _ hl
          simp only [Trie.has_word, children_mk, hls, hl]
          rw [ih rest' u full]
          simp [List.cons_prefix_cons]
        · have hls : lookupChild (updateChild t.children d (insertAux full u rest')) c =
              lookupChild t.children c := lookupChild_update_ne _ hc
          simp only [Trie.has_word, children_mk, hls]
          have hpre : ¬ (c :: p') <+: (d :: rest') := by
            rw [List.cons_prefix_cons]
            exact fun hh => hc hh.1
          simp [hpre]
      | none =>
        simp only
        by_cases hc : c = d
        · subst hc
          have hlk : lookupChild (t.children ++ [(c, insertAux full (Trie.mk none []) rest')]) c
              = some (insertAux full (Trie.mk none []) rest') := by
            rw [lookupChild_append_none hl]
            simp [lookupChild]
          simp only [Trie.has_word, children_mk, hlk, hl]
          rw [ih rest' (Trie.mk none []) full]
          rw [has_word_empty_iff]
          simp only [List.cons_prefix_cons, true_and]
          constructor
          · rintro (rfl | h)
            · exact Or.inr List.nil_prefix
            · exact Or.inr h
          · rintro (h | h)
            · exact absurd h (by simp)
            · exact Or.inr h
        · have hpre : ¬ (c :: p') <+: (d :: rest') := by
            rw [List.cons_prefix_cons]
            exact fun hh => hc hh.1
          cases hl2 : lookupChild t.children c with
          | some u2 =>
            have hlk : lookupChild (t.children ++ [(d, insertAux full (Trie.mk none []) rest')])
                c = some u2 := lookupChild_append_some hl2
            simp [Trie.has_word, children_mk, hlk, hl2, hpre]
          | none =>
            have hlk : lookupChild (t.children ++ [(d, insertAux full (Trie.mk none []) rest')])
                c = none := by
              rw [lookupChild_append_none hl2]
              simp [lookupChild, Ne.symm hc]
            simp [Trie.has_word, children_mk, hlk, hl2, hpre]

theorem has_word_insert (t : Trie) (w p : List Char) :
    (t.insert w).has_word p = true ↔ (t.has_word p = true ∨ p <+: w) :=
  has_word_insertAux p w t w

/-- Paths of a built dictionary are exactly the initial segments of inserted
words (plus the empty path). -/
theorem has_word_foldl (ws : List (List Char)) (p : List Char) : ∀ t : Trie,
    (ws.foldl Trie.insert t).has_word p = true ↔
      (t.has_word p = true ∨ ∃ w ∈ ws, p <+: w) := by
  induction ws with
  | nil => intro t; simp
  | cons w ws' ih =>
    intro t
    simp only [List.foldl_cons]
    rw [ih (t.insert w), has_word_insert]
    simp only [List.mem_cons]
    constructor
    · rintro ((h | h) | ⟨x, hx, hp⟩)
      · exact Or.inl h
      · exact Or.inr ⟨w, Or.inl rfl, h⟩
      · exact Or.inr ⟨x, Or.inr hx, hp⟩
    · rintro (h | ⟨x, (rfl | hx), hp⟩)
      · exact Or.inl (Or.inl h)
      · exact Or.inl (Or.inr hp)
      · exact Or.inr ⟨x, hx, hp⟩

theorem has_word_buildTrie (ws : List (List Char)) (p : List Char) :
    (buildTrie ws).has_word p = true ↔ (p = [] ∨ ∃ w ∈ ws, p <+: w) := by
  rw [buildTrie, has_word_foldl, has_word_empty_iff]

/-!
## The structural invariant of built dictionaries
-/

/-- `Good p t`: at the node reached by path `p`, every stored word equals the
root-to-node path, childless non-root nodes carry a word, the children keys
are distinct, and the same holds recursively below. -/
inductive Good : List Char → Trie → Prop where
  | intro {p : List Char} {wo : Option (List Char)} {ch : List (Char × Trie)} :
      (∀ w, wo = some w → w = p) →
      (ch = [] → p ≠ [] → wo ≠ none) →
      (ch.map Prod.fst).Nodup →
      (∀ c u, (c, u) ∈ ch → Good (p ++ [c]) u) →
      Good p (Trie.mk wo ch)

theorem Good.word_eq {p : List Char} {t : Trie} (h : Good p t) :
    ∀ w, t.word = some w → w = p := by
  cases h with
  | intro h1 h2 h3 h4 => exact h1

theorem Good.leaf {p : List Char} {t : Trie} (h : Good p t) :
    t.children = [] → p ≠ [] → t.word ≠ none := by
  cases h with
  | intro h1 h2 h3 h4 => exact h2

theorem Good.keysNodup {p : List Char} {t : Trie} (h : Good p t) :
    (t.children.map Prod.fst).Nodup := by
  cases h with
  | intro h1 h2 h3 h4 => exact h3

theorem Good.child {p : List Char} {t : Trie} (h : Good p t) :
    ∀ c u, (c, u) ∈ t.children → Good (p ++ [c]) u := by
  cases h with
  | intro h1 h2 h3 h4 => exact h4

theorem lookupChild_none_key {ch : List (Char × Trie)} {c : Char}
    (h : lookupChild ch c = none) : c ∉ ch.map Prod.fst := by
  intro hmem
  obtain ⟨x, hx, hxc⟩ := List.mem_map.mp hmem
  have : (c, x.2) ∈ ch := by
    have : x = (c, x.2) := by
      cases x; simp_all
    rw [← this]; exact hx
  exact lookupChild_none_not_mem h this

theorem good_fresh : ∀ (rest p : List Char),
    Good p (insertAux (p ++ rest) (Trie.mk none []) rest) := by
  intro rest
  induction rest with
  | nil =>
    intro p
    rw [insertAux]
    constructor
    · intro w hw
      injection hw with hw'
      rw [← hw']; simp
    · intro _ _ h; exact Option.noConfusion h
    · simp [children_mk]
    · intro c u hm; simp [children_mk] at hm
  | cons c rest' ih =>
    intro p
    rw [insertAux]
    simp only [children_mk, word_mk, lookupChild, List.nil_append]
    constructor
    · intro w hw; exact absurd hw (by simp)
    · intro hch; exact absurd hch (by simp [children_mk])
    · simp [children_mk]
    · intro c' u' hm
      simp only [List.nil_append, List.mem_singleton] at hm
      injection hm with hm1 hm2
      subst hm1; subst hm2
      have h := ih (p ++ [c'])
      rw [← List.append_cons] at h
      exact h

theorem good_insertAux : ∀ (rest p : List Char) (t : Trie), Good p t →
    Good p (insertAux (p ++ rest) t rest) := by
  intro rest
  induction rest with
  | nil =>
    intro p t hg
    cases t with
    | mk wo ch =>
      rw [insertAux]
      cases hg with
      | intro h1 h2 h3 h4 =>
        constructor
        · intro w hw
          injection hw with hw'
          rw [← hw']; simp
        · intro _ _ h; exact Option.noConfusion h
        · exact h3
        · exact h4
  | cons c rest' ih =>
    intro p t hg
    cases t with
    | mk wo ch =>
      rw [insertAux]
      simp only [children_mk, word_mk]
      cases hg with
      | intro h1 h2 h3 h4 =>
        cases hl : lookupChild ch c with
        | some u =>
          constructor
          · exact h1
          · intro hup hp
            have hkeys : ch.map Prod.fst = [] := by
              have := updateChild_keys ch c (insertAux (p ++ c :: rest') u rest')
              rw [hup] at this
              exact this.symm
            have hch : ch = [] := List.map_eq_nil_iff.mp hkeys
            rw [hch] at hl
            exact absurd hl (by simp [lookupChild])
          · rw [updateChild_keys]; exact h3
          · intro c' u' hm
            rcases mem_updateChild hm with hmem | heq
            · exact h4 c' u' hmem
            · injection heq with he1 he2
              subst he1; subst he2
              have hku : Good (p ++ [c']) u := h4 c' u (mem_of_lookupChild hl)
              have h := ih (p ++ [c']) u hku
              rw [← List.append_cons] at h
              exact h
        | none =>
          constructor
          · exact h1
          · intro hup; exact absurd hup (by simp)
          · rw [List.map_append]
            simp only [List.map_cons, List.map_nil]
            rw [List.nodup_append]
            refine ⟨h3, List.nodup_singleton c, ?_⟩
            intro a ha hb
            simp only [List.mem_singleton] at hb
            subst hb
            exact lookupChild_none_key hl ha
          · intro c' u' hm
            rcases List.mem_append.mp hm with hmem | hmem
            · exact h4 c' u' hmem
            · simp only [List.mem_singleton] at hmem
              injection hmem with he1 he2
              subst he1; subst he2
              have h := good_fresh rest' (p ++ [c'])
              rw [← List.append_cons] at h
              exact h

theorem good_empty : Good [] (Trie.mk none []) := by
  constructor
  · intro w hw; exact absurd hw (by simp)
  · intro _ hp; exact absurd rfl hp
  · simp
  · intro c u hm; simp [children_mk] at hm

theorem good_insert {t : Trie} (hg : Good [] t) (w : List Char) : Good [] (t.insert w) := by
  have h := good_insertAux w [] t hg
  simpa using h

/-- **Invariant**: every dictionary built by insertions satisfies `Good`. -/
theorem good_buildTrie (ws : List (List Char)) : Good [] (buildTrie ws) := by
  rw [buildTrie]
  have main : ∀ (l : List (List Char)) (t : Trie), Good [] t → Good [] (l.foldl Trie.insert t) := by
    intro l
    induction l with
    | nil => intro t hg; exact hg
    | cons w l' ih =>
      intro t hg
      exact ih (t.insert w) (good_insert hg w)
  exact main ws _ good_empty

theorem word_insertAux_root {rest : List Char} (hne : rest ≠ []) (t : Trie)
    (full : List Char) : (insertAux full t rest).word = t.word := by
  cases rest with
  | nil => exact absurd rfl hne
  | cons c rest' =>
    rw [insertAux]
    cases lookupChild t.children c <;> simp [word_mk]

theorem root_word_buildTrie (ws : List (List Char)) (h : ∀ w ∈ ws, w ≠ []) :
    (buildTrie ws).word = none := by
  rw [buildTrie]
  have main : ∀ (l : List (List Char)), (∀ w ∈ l, w ≠ []) → ∀ t : Trie, t.word = none →
      (l.foldl Trie.insert t).word = none := by
    intro l
    induction l with
    | nil => intro _ t ht; exact ht
    | cons w l' ih =>
      intro hl t ht
      simp only [List.foldl_cons]
      refine ih (fun x hx => hl x (List.mem_cons_of_mem _ hx)) _ ?_
      rw [Trie.insert, word_insertAux_root (hl w (List.mem_cons_self _ _)) t w]
      exact ht
  exact main ws h _ rfl

/-!
## Word markers
-/

theorem nodeAt_empty {p : List Char} {u : Trie} (h : NodeAt (Trie.mk none []) p u) :
    p = [] ∧ u = Trie.mk none [] := by
  cases h with
  | refl => exact ⟨rfl, rfl⟩
  | step hl hn => simp [children_mk, lookupChild] at hl

theorem good_nodeAt {p0 : List Char} {t : Trie} (hg : Good p0 t) :
    ∀ {p : List Char} {u : Trie}, NodeAt t p u → Good (p0 ++ p) u := by
  intro p u hn
  induction hn generalizing p0 with
  | refl => simpa using hg
  | step hl hn ih =>
    rename_i t' u' v' c' p'
    have hchild : Good (p0 ++ [c']) u' := hg.child c' u' (mem_of_lookupChild hl)
    have h := ih hchild
    rw [← List.append_cons] at h
    exact h

/-- `insert` marks exactly its own final node with the full inserted word. -/
theorem nodeAt_insertAux_self : ∀ (rest : List Char) (t : Trie) (full : List Char),
    ∃ u, NodeAt (insertAux full t rest) rest u ∧ u.word = some full := by
  intro rest
  induction rest with
  | nil =>
    intro t full
    exact ⟨_, NodeAt.refl _, rfl⟩
  | cons c rest' ih =>
    intro t full
    rw [insertAux]
    cases hl : lookupChild t.children c with
    | some u0 =>
      obtain ⟨u, hn, hw⟩ := ih u0 full
      refine ⟨u, NodeAt.step ?_ hn, hw⟩
      simp only [children_mk]
      exact lookupChild_update_self _ hl
    | none =>
      obtain ⟨u, hn, hw⟩ := ih (Trie.mk none []) full
      refine ⟨u, NodeAt.step ?_ hn, hw⟩
      simp only [children_mk]
      rw [lookupChild_append_none hl]
      simp [lookupChild]

/-- An existing marker that equals its own path survives any insertion (it is
either untouched, or overwritten with the same value). -/
theorem marker_preserved : ∀ (p : List Char) (t : Trie) (rest full : List Char)
    (w0 : List Char), (∃ u, NodeAt t p u ∧ u.word = some w0) →
    ∃ u', NodeAt (insertAux full t rest) p u' ∧
      (u'.word = some w0 ∨ (p = rest ∧ u'.word = some full)) := by
  intro p
  induction p with
  | nil =>
    intro t rest full w0 ⟨u, hn, hw⟩
    obtain rfl := nodeAt_nil hn
    cases rest with
    | nil =>
      refine ⟨_, NodeAt.refl _, Or.inr ⟨rfl, rfl⟩⟩
    | cons d rest' =>
      refine ⟨_, NodeAt.refl _, Or.inl ?_⟩
      rw [word_insertAux_root (by simp) u full]
      exact hw
  | cons c p' ih =>
    intro t rest full w0 ⟨u, hn, hw⟩
    obtain ⟨u0, hl0, hn0⟩ := nodeAt_cons hn
    cases rest with
    | nil =>
      rw [insertAux]
      exact ⟨u, NodeAt.step (by simpa [children_mk] using hl0) hn0, Or.inl hw⟩
    | cons d rest' =>
      rw [insertAux]
      cases hl : lookupChild t.children d with
      | some ud =>
        by_cases hc : c = d
        · subst hc
          rw [hl0] at hl
          injection hl with hl'
          subst hl'
          obtain ⟨u', hn', hd'⟩ := ih u0 rest' full w0 ⟨u, hn0, hw⟩
          refine ⟨u', NodeAt.step ?_ hn', ?_⟩
          · simp only [children_mk]
            exact lookupChild_update_self _ hl0
          · rcases hd' with h | ⟨rfl, h⟩
            · exact Or.inl h
            · exact Or.inr ⟨rfl, h⟩
        · refine ⟨u, NodeAt.step ?_ hn0, Or.inl hw⟩
          simp only [children_mk]
          rw [lookupChild_update_ne _ hc]
          exact hl0
      | none =>
        by_cases hc : c = d
        · subst hc
          rw [hl0] at hl
          exact Option.noConfusion hl
        · refine ⟨u, NodeAt.step ?_ hn0, Or.inl hw⟩
          simp only [children_mk]
          exact lookupChild_append_some hl0

/-- Every marker in the trie after an insertion is either the inserted word or
was already present. -/
theorem word_insertAux_src : ∀ (rest : List Char) (t : Trie) (full p : List Char)
    (u : Trie) (w : List Char), NodeAt (insertAux full t rest) p u → u.word = some w →
    (w = full ∨ ∃ u0, NodeAt t p u0 ∧ u0.word = some w) := by
  intro rest
  induction rest with
  | nil =>
    intro t full p u w hn hw
    rw [insertAux] at hn
    cases p with
    | nil =>
      obtain rfl := nodeAt_nil hn
      rw [word_mk] at hw
      injection hw with hw'
      exact Or.inl hw'.symm
    | cons c p' =>
      obtain ⟨u0, hl0, hn0⟩ := nodeAt_cons hn
      rw [children_mk] at hl0
      exact Or.inr ⟨u, NodeAt.step hl0 hn0, hw⟩
  | cons d rest' ih =>
    intro t full p u w hn hw
    rw [insertAux] at hn
    cases hl : lookupChild t.children d with
    | some ud =>
      rw [hl] at hn
      cases p with
      | nil =>
        obtain rfl := nodeAt_nil hn
        rw [word_mk] at hw
        exact Or.inr ⟨t, NodeAt.refl t, hw⟩
      | cons c p' =>
        obtain ⟨y, hly, hny⟩ := nodeAt_cons hn
        rw [children_mk] at hly
        by_cases hc : c = d
        · subst hc
          rw [lookupChild_update_self _ hl] at hly
          injection hly with hly'
          subst hly'
          rcases ih ud full p' u w hny hw with h | ⟨u0, hn0, hw0⟩
          · exact Or.inl h
          · exact Or.inr ⟨u0, NodeAt.step hl hn0, hw0⟩
        · rw [lookupChild_update_ne _ hc] at hly
          exact Or.inr ⟨u, NodeAt.step hly hny, hw⟩
    | none =>
      rw [hl] at hn
      cases p with
      | nil =>
        obtain rfl := nodeAt_nil hn
        rw [word_mk] at hw
        exact Or.inr ⟨t, NodeAt.refl t, hw⟩
      | cons c p' =>
        obtain ⟨y, hly, hny⟩ := nodeAt_cons hn
        rw [children_mk] at hly
        by_cases hc : c = d
        · subst hc
          rw [lookupChild_append_none hl] at hly
          rw [lookupChild, if_pos rfl] at hly
          injection hly with hly'
          subst hly'
          rcases ih (Trie.mk none []) full p' u w hny hw with h | ⟨u0, hn0, hw0⟩
          · exact Or.inl h
          · obtain ⟨rfl, rfl⟩ := nodeAt_empty hn0
            rw [word_mk] at hw0
            exact Option.noConfusion hw0
        · cases hl2 : lookupChild t.children c with
          | some u2 =>
            rw [lookupChild_append_some hl2] at hly
            injection hly with hly'
            subst hly'
            exact Or.inr ⟨u, NodeAt.step hl2 hny, hw⟩
          | none =>
            rw [lookupChild_append_none hl2] at hly
            rw [lookupChild, if_neg (fun hh => hc hh.symm)] at hly
            simp [lookupChild] at hly

/-- Every marker of a built dictionary is one of the inserted words. -/
theorem marker_buildTrie_mem {ws : List (List Char)} {p : List Char} {u : Trie}
    {w : List Char} (hn : NodeAt (buildTrie ws) p u) (hw : u.word = some w) : w ∈ ws := by
  have main : ∀ (l : List (List Char)) (t : Trie) (p : List Char) (u : Trie) (w : List Char),
      NodeAt (l.foldl Trie.insert t) p u → u.word = some w →
      (w ∈ l ∨ ∃ u0, NodeAt t p u0 ∧ u0.word = some w) := by
    intro l
    induction l with
    | nil => intro t p u w hn hw; exact Or.inr ⟨u, hn, hw⟩
    | cons v l' ih =>
      intro t p u w hn hw
      simp only [List.foldl_cons] at hn
      rcases ih (t.insert v) p u w hn hw with h | ⟨u0, hn0, hw0⟩
      · exact Or.inl (List.mem_cons_of_mem _ h)
      · rcases word_insertAux_src v t v p u0 w hn0 hw0 with h | ⟨u1, hn1, hw1⟩
        · exact Or.inl (h ▸ List.mem_cons_self _ _)
        · exact Or.inr ⟨u1, hn1, hw1⟩
  rcases main ws (Trie.mk none []) p u w hn hw with h | ⟨u0, hn0, hw0⟩
  · exact h
  · obtain ⟨rfl, rfl⟩ := nodeAt_empty hn0
    rw [word_mk] at hw0
    exact Option.noConfusion hw0

/-- Every inserted word is the marker of the node at its own path. -/
theorem marker_buildTrie_self {ws : List (List Char)} {w : List Char} (h : w ∈ ws) :
    ∃ u, NodeAt (buildTrie ws) w u ∧ u.word = some w := by
  have main : ∀ (l : List (List Char)) (t : Trie) (w : List Char),
      (w ∈ l ∨ ∃ u, NodeAt t w u ∧ u.word = some w) →
      ∃ u, NodeAt (l.foldl Trie.insert t) w u ∧ u.word = some w := by
    intro l
    induction l with
    | nil =>
      intro t w h
      rcases h with h | h
      · simp at h
      · exact h
    | cons v l' ih =>
      intro t w h
      simp only [List.foldl_cons]
      refine ih (t.insert v) w ?_
      rcases h with h | hmark
      · rcases List.mem_cons.mp h with rfl | h'
        · exact Or.inr (nodeAt_insertAux_self w t w)
        · exact Or.inl h'
      · right
        obtain ⟨u', hn', hd'⟩ := marker_preserved w t v v w hmark
        refine ⟨u', hn', ?_⟩
        rcases hd' with h | ⟨rfl, h⟩
        · exact h
        · exact h
  exact main ws (Trie.mk none []) w (Or.inl h)

/-- Re-inserting a word whose final node already carries exactly that word
leaves the trie unchanged. -/
theorem insertAux_existing : ∀ (rest : List Char) (t : Trie) (u : Trie),
    NodeAt t rest u → u.word = some rest → insertAux rest t rest = t := by
  have main : ∀ (rest : List Char) (t : Trie) (full : List Char) (u : Trie),
      NodeAt t rest u → u.word = some full → insertAux full t rest = t := by
    intro rest
    induction rest with
    | nil =>
      intro t full u hn hw
      obtain rfl := nodeAt_nil hn
      cases u with
      | mk wo ch =>
        rw [insertAux]
        rw [word_mk] at hw
        simp [children_mk, hw]
    | cons c rest' ih =>
      intro t full u hn hw
      obtain ⟨u0, hl0, hn0⟩ := nodeAt_cons hn
      rw [insertAux, hl0]
      show Trie.mk t.word (updateChild t.children c (insertAux full u0 rest')) = t
      rw [ih u0 full u hn0 hw, updateChild_self_eq hl0]
      cases t with
      | mk wo ch => rfl
  intro rest t u hn hw
  exact main rest t rest u hn hw

/-- **C9 core**: inserting an already-present word does not change the trie. -/
theorem insert_existing {ws : List (List Char)} {w : List Char} (h : w ∈ ws) :
    (buildTrie ws).insert w = buildTrie ws := by
  obtain ⟨u, hn, hw⟩ := marker_buildTrie_self h
  exact insertAux_existing w (buildTrie ws) u hn hw

/-!
## DP rows and their meaning

`specRow rp ru w'` is the list of true Levenshtein distances
`[lev (reverse (take i (w : input)) ) (reverse path) | i]` written with an
accumulator: `ru` is the reversed already-consumed part of the input and `rp`
the reversed path of the current trie node.
-/

def specRow (rp : List Char) : List Char → List Char → List Nat
  | ru, [] => [lev ru rp]
  | ru, a :: w' => lev ru rp :: specRow rp (a :: ru) w'

theorem specRow_head (rp ru w' : List Char) :
    ∃ tl, specRow rp ru w' = lev ru rp :: tl := by
  cases w' with
  | nil => exact ⟨[], rfl⟩
  | cons a w'' => exact ⟨_, rfl⟩

theorem specRow_nil_eq_range' : ∀ (w' ru : List Char),
    specRow [] ru w' = List.range' ru.length (w'.length + 1) := by
  intro w'
  induction w' with
  | nil =>
    intro ru
    rw [specRow, lev_nil_right]
    show [ru.length] = List.range' ru.length 1
    rw [List.range'_one]
  | cons a w'' ih =>
    intro ru
    rw [specRow, ih (a :: ru), lev_nil_right]
    show List.range' ru.length ((a :: w'').length + 1) =
      ru.length :: List.range' (a :: ru).length (w''.length + 1)
    rw [List.length_cons, List.length_cons, List.range'_succ]

/-- The initial row `range(n+1)` is the ideal row of the empty path. -/
theorem range_eq_specRow (wd : List Char) :
    List.range (wd.length + 1) = specRow [] [] wd := by
  rw [specRow_nil_eq_range', List.range_eq_range']
  rfl

theorem rowRest_spec (c : Char) (rp : List Char) : ∀ (w' ru : List Char),
    rowRest c (lev ru (c :: rp)) w' (specRow rp ru w') = (specRow (c :: rp) ru w').tail := by
  intro w'
  induction w' with
  | nil => intro ru; rfl
  | cons a w'' ih =>
    intro ru
    obtain ⟨tl, htl⟩ := specRow_head rp (a :: ru) w''
    rw [specRow, htl, rowRest]
    have hk : (if a = c then lev ru rp
        else min (min (lev ru (c :: rp)) (lev (a :: ru) rp)) (lev ru rp) + 1) =
        lev (a :: ru) (c :: rp) := by
      rw [lev]
      split
      next h => rfl
      next h =>
        rw [Nat.add_comm 1 _, min_assoc]
    rw [hk, ← htl, ih (a :: ru)]
    obtain ⟨tl2, htl2⟩ := specRow_head (c :: rp) (a :: ru) w''
    rw [specRow, htl2]
    rfl

/-- One step of the row computation of `_helper` transforms the ideal row of
the parent path into the ideal row of the extended path. -/
theorem nextRow_spec (c : Char) (rp : List Char) (wd : List Char) :
    nextRow c wd (specRow rp [] wd) = specRow (c :: rp) [] wd := by
  obtain ⟨tl, htl⟩ := specRow_head rp [] wd
  rw [nextRow.eq_def, htl]
  show (lev [] rp + 1) :: rowRest c (lev [] rp + 1) wd (lev [] rp :: tl) =
    specRow (c :: rp) [] wd
  rw [← htl]
  have h0 : lev [] rp + 1 = lev [] (c :: rp) := by
    rw [lev_nil_left, lev_nil_left]
    rfl
  rw [h0, rowRest_spec c rp wd []]
  obtain ⟨tl2, htl2⟩ := specRow_head (c :: rp) [] wd
  rw [htl2]
  rfl

theorem specRow_last (rp : List Char) : ∀ (w' ru : List Char),
    listLast (specRow rp ru w') = lev (List.reverse w' ++ ru) rp := by
  intro w'
  induction w' with
  | nil => intro ru; simp [specRow, listLast]
  | cons a w'' ih =>
    intro ru
    obtain ⟨tl, htl⟩ := specRow_head rp (a :: ru) w''
    rw [specRow, htl, listLast, ← htl, ih (a :: ru)]
    simp

theorem specRow_mem (rp : List Char) : ∀ (w1 w2 ru : List Char),
    lev (List.reverse w1 ++ ru) rp ∈ specRow rp ru (w1 ++ w2) := by
  intro w1
  induction w1 with
  | nil =>
    intro w2 ru
    obtain ⟨tl, htl⟩ := specRow_head rp ru w2
    simp only [List.nil_append, List.reverse_nil]
    rw [htl]
    exact List.mem_cons_self _ _
  | cons a w1' ih =>
    intro w2 ru
    rw [List.cons_append, specRow]
    have h := ih w2 (a :: ru)
    have he : List.reverse w1' ++ (a :: ru) = List.reverse (a :: w1') ++ ru := by simp
    rw [he] at h
    exact List.mem_cons_of_mem _ h

theorem listMin_le {l : List Nat} {x : Nat} (h : x ∈ l) : listMin l ≤ x := by
  induction l with
  | nil => simp at h
  | cons a l' ih =>
    cases l' with
    | nil =>
      simp at h
      simp [listMin, h]
    | cons b rest =>
      rw [listMin]
      rcases List.mem_cons.mp h with rfl | h'
      · exact min_le_left _ _
      · exact le_trans (min_le_right _ _) (ih h')

/-- The "record a match at this node" step of `_helper`, as a function of the
node's stored word and the last entry of the current row. -/
def hereList (wo : Option (List Char)) (v dist : Nat) : List ((List Char) × Nat) :=
  match wo with
  | some w => if v ≤ dist ∧ w ≠ [] then [(w, v)] else []
  | none => []

theorem mem_hereList {wo : Option (List Char)} {v dist : Nat} {x : (List Char) × Nat} :
    x ∈ hereList wo v dist ↔ ∃ w, wo = some w ∧ v ≤ dist ∧ w ≠ [] ∧ x = (w, v) := by
  cases wo with
  | none => simp [hereList]
  | some w =>
    rw [hereList]
    split
    next hcond =>
      rw [List.mem_singleton]
      constructor
      · intro hx; exact ⟨w, rfl, hcond.1, hcond.2, hx⟩
      · rintro ⟨w', hw', _, _, hx⟩
        injection hw' with hw''
        rw [hx, hw'']
    next hcond =>
      constructor
      · intro hx; exact absurd hx (List.not_mem_nil x)
      · rintro ⟨w', hw', h1, h2, hx⟩
        injection hw' with hw''
        subst hw''
        exact absurd ⟨h1, h2⟩ hcond

/-- Unfolding equation for `_helper` with the children traversal written as a
plain `map`. -/
theorem helper_eq (wd : List Char) (dist : Nat) (t : Trie) (letter : Char) (prev : List Nat) :
    SpellCheck.helper wd dist t letter prev =
      hereList t.word (listLast (nextRow letter wd prev)) dist ++
      (if listMin (nextRow letter wd prev) ≤ dist then
        (t.children.map
          (fun p => SpellCheck.helper wd dist p.2 p.1 (nextRow letter wd prev))).flatten
      else []) := by
  rw [SpellCheck.helper]
  rw [List.attach_map_val t.children
    (fun p => SpellCheck.helper wd dist p.2 p.1 (nextRow letter wd prev))]
  rfl

theorem sizeOf_trie_pos (t : Trie) : 1 ≤ sizeOf t := by
  cases t with
  | mk wo ch => simp [Trie.mk.sizeOf_spec]; omega

/-- A wider budget never loses a recorded match (the recording test and the
pruning test both only relax). -/
theorem helper_mono (wd : List Char) {d1 d2 : Nat} (hd : d1 ≤ d2) :
    ∀ (N : Nat) (t : Trie), sizeOf t ≤ N → ∀ (letter : Char) (prev : List Nat)
      (x : (List Char) × Nat),
      x ∈ SpellCheck.helper wd d1 t letter prev → x ∈ SpellCheck.helper wd d2 t letter prev := by
  intro N
  induction N with
  | zero =>
    intro t hle
    have := sizeOf_trie_pos t
    omega
  | succ N ih =>
    intro t hle letter prev x hx
    rw [helper_eq] at hx ⊢
    rcases List.mem_append.mp hx with hm | hm
    · apply List.mem_append_left
      rw [mem_hereList] at hm ⊢
      obtain ⟨w, hw, h1, h2, hx⟩ := hm
      exact ⟨w, hw, le_trans h1 hd, h2, hx⟩
    · apply List.mem_append_right
      split at hm
      next hmin =>
        rw [if_pos (le_trans hmin hd)]
        rw [List.mem_flatten] at hm ⊢
        obtain ⟨l, hl, hxl⟩ := hm
        obtain ⟨p, hp, rfl⟩ := List.mem_map.mp hl
        refine ⟨_, List.mem_map_of_mem _ hp, ?_⟩
        have hsz : sizeOf p.2 ≤ N := by
          have := sizeOf_child_lt hp
          omega
        exact ih p.2 hsz p.1 _ x hxl
      next hmin => simp at hm

/-- **C6 core**: a larger `maxDistance` records a superset of the matches. -/
theorem rootMatches_mono (t : Trie) (wd : List Char) {d1 d2 : Nat} (hd : d1 ≤ d2)
    {x : (List Char) × Nat} (hx : x ∈ rootMatches t wd d1) : x ∈ rootMatches t wd d2 := by
  rw [rootMatches] at hx ⊢
  rw [List.mem_flatten] at hx ⊢
  obtain ⟨l, hl, hxl⟩ := hx
  obtain ⟨p, hp, rfl⟩ := List.mem_map.mp hl
  exact ⟨_, List.mem_map_of_mem _ hp,
    helper_mono wd hd (sizeOf p.2) p.2 le_rfl p.1 _ x hxl⟩

/-- **C1 core, per subtree**: launched with the ideal row of the parent path
`rp` along edge `c`, `_helper` records exactly the pairs `(w, d)` where `w`
is the word of a terminal node of the subtree, `d` the true Levenshtein
distance between the input and that node's full path, and `d ≤ dist`; the
pruning never loses an in-budget word. -/
theorem helper_mem_iff (wd : List Char) (dist : Nat) :
    ∀ (N : Nat) (t : Trie), sizeOf t ≤ N → ∀ (rp : List Char) (c : Char),
      Good (List.reverse (c :: rp)) t → ∀ (w : List Char) (d : Nat),
      ((w, d) ∈ SpellCheck.helper wd dist t c (specRow rp [] wd) ↔
        ∃ s u, NodeAt t s u ∧ u.word = some w ∧ w ≠ [] ∧
          d = lev (List.reverse wd) (List.reverse s ++ c :: rp) ∧ d ≤ dist) := by
  intro N
  induction N with
  | zero =>
    intro t hle
    have := sizeOf_trie_pos t
    omega
  | succ N ih =>
    intro t hle rp c hg w d
    rw [helper_eq, nextRow_spec]
    constructor
    · intro hmem
      rcases List.mem_append.mp hmem with hm | hm
      · rw [mem_hereList] at hm
        obtain ⟨w0, hw0, h1, h2, hx⟩ := hm
        injection hx with hx1 hx2
        refine ⟨[], t, NodeAt.refl t, ?_, ?_, ?_, ?_⟩
        · rw [hx1]; exact hw0
        · rw [hx1]; exact h2
        · simp only [List.reverse_nil, List.nil_append]
          rw [hx2, specRow_last (c :: rp) wd [], List.append_nil]
        · rw [hx2]; exact h1
      · split at hm
        next hmin =>
          rw [List.mem_flatten] at hm
          obtain ⟨l, hl, hxl⟩ := hm
          obtain ⟨p, hp, rfl⟩ := List.mem_map.mp hl
          have hsz : sizeOf p.2 ≤ N := by
            have := sizeOf_child_lt hp
            omega
          have hpe : (p.1, p.2) ∈ t.children := by rw [Prod.mk.eta]; exact hp
          have hgood : Good (List.reverse (p.1 :: c :: rp)) p.2 := by
            rw [List.reverse_cons]
            exact hg.child p.1 p.2 hpe
          rw [ih p.2 hsz (c :: rp) p.1 hgood w d] at hxl
          obtain ⟨s, u, hn, hwu, hne, hd, hdle⟩ := hxl
          refine ⟨p.1 :: s, u, NodeAt.step ?_ hn, hwu, hne, ?_, hdle⟩
          · exact lookupChild_of_mem_nodup hg.keysNodup hpe
          · rw [hd, List.reverse_cons, List.append_assoc]
            rfl
        next hmin => exact absurd hm (List.not_mem_nil _)
    · rintro ⟨s, u, hn, hwu, hne, hd, hdle⟩
      cases s with
      | nil =>
        obtain rfl := nodeAt_nil hn
        apply List.mem_append_left
        rw [mem_hereList]
        simp only [List.reverse_nil, List.nil_append] at hd
        refine ⟨w, hwu, ?_, hne, ?_⟩
        · rw [specRow_last (c :: rp) wd [], List.append_nil, ← hd]
          exact hdle
        · rw [specRow_last (c :: rp) wd [], List.append_nil, ← hd]
      | cons c1 s1 =>
        obtain ⟨u1, hl, hn'⟩ := nodeAt_cons hn
        apply List.mem_append_right
        rw [List.reverse_cons] at hd
        have hbound : listMin (specRow (c :: rp) [] wd) ≤ d := by
          rw [List.append_assoc] at hd
          obtain ⟨xs', hsuf, hlev⟩ :=
            lev_le_append (List.reverse wd) (List.reverse s1 ++ [c1]) (c :: rp)
          rw [List.append_assoc] at hlev
          obtain ⟨t', ht'⟩ := hsuf
          have hwd : wd = List.reverse xs' ++ List.reverse t' := by
            have h2 := congrArg List.reverse ht'
            simpa using h2.symm
          have hmem2 : lev (List.reverse (List.reverse xs') ++ []) (c :: rp) ∈
              specRow (c :: rp) [] (List.reverse xs' ++ List.reverse t') :=
            specRow_mem (c :: rp) (List.reverse xs') (List.reverse t') []
          rw [List.reverse_reverse, List.append_nil, ← hwd] at hmem2
          rw [hd]
          exact le_trans (listMin_le hmem2) hlev
        rw [if_pos (le_trans hbound hdle)]
        rw [List.mem_flatten]
        have hmem1 : (c1, u1) ∈ t.children := mem_of_lookupChild hl
        refine ⟨SpellCheck.helper wd dist u1 c1 (specRow (c :: rp) [] wd), ?_, ?_⟩
        · exact List.mem_map_of_mem _ hmem1
        · have hsz : sizeOf u1 ≤ N := by
            have h2 : sizeOf u1 < sizeOf t := by simpa using sizeOf_child_lt hmem1
            omega
          have hgood : Good (List.reverse (c1 :: c :: rp)) u1 := by
            rw [List.reverse_cons]
            exact hg.child c1 u1 hmem1
          rw [ih u1 hsz (c :: rp) c1 hgood w d]
          refine ⟨s1, u, hn', hwu, hne, ?_, hdle⟩
          rw [hd, List.append_assoc]
          rfl

/-- `w` is the `terminalWord` of some node of the trie. -/
def TerminalWord (t : Trie) (w : List Char) : Prop :=
  ∃ p u, NodeAt t p u ∧ u.word = some w

/-- **C1 core, root level**: for a well-formed dictionary whose root stores no
word, the traversal records exactly the terminal words within budget, each
with its true Levenshtein distance from the input. -/
theorem rootMatches_iff (wd : List Char) (dist : Nat) (t : Trie) (hg : Good [] t)
    (hroot : t.word = none) (w : List Char) (d : Nat) :
    ((w, d) ∈ rootMatches t wd dist ↔ TerminalWord t w ∧ d = lev wd w ∧ d ≤ dist) := by
  rw [rootMatches, List.mem_flatten]
  constructor
  · rintro ⟨l, hl, hxl⟩
    obtain ⟨p, hp, rfl⟩ := List.mem_map.mp hl
    have hpe : (p.1, p.2) ∈ t.children := by rw [Prod.mk.eta]; exact hp
    have hgood : Good (List.reverse (p.1 :: ([] : List Char))) p.2 := by
      have h := hg.child p.1 p.2 hpe
      simpa using h
    rw [range_eq_specRow] at hxl
    rw [helper_mem_iff wd dist (sizeOf p.2) p.2 le_rfl [] p.1 hgood w d] at hxl
    obtain ⟨s, u, hn, hwu, hne, hd, hdle⟩ := hxl
    have hnode : NodeAt t (p.1 :: s) u :=
      NodeAt.step (lookupChild_of_mem_nodup hg.keysNodup hpe) hn
    have hpath : Good ([] ++ (p.1 :: s)) u := good_nodeAt hg hnode
    have hw_eq : w = p.1 :: s := by
      have h := hpath.word_eq w hwu
      simpa using h
    refine ⟨⟨p.1 :: s, u, hnode, hwu⟩, ?_, hdle⟩
    rw [hd, hw_eq, ← lev_reverse wd (p.1 :: s), List.reverse_cons]
  · rintro ⟨⟨p, u, hn, hwu⟩, hd, hdle⟩
    have hpath : Good ([] ++ p) u := good_nodeAt hg hn
    have hw_eq : w = p := by
      have h := hpath.word_eq w hwu
      simpa using h
    cases p with
    | nil =>
      obtain rfl := nodeAt_nil hn
      rw [hroot] at hwu
      exact Option.noConfusion hwu
    | cons c1 s1 =>
      obtain ⟨u1, hl, hn'⟩ := nodeAt_cons hn
      have hmem1 : (c1, u1) ∈ t.children := mem_of_lookupChild hl
      refine ⟨_, List.mem_map_of_mem
        (fun q => SpellCheck.helper wd dist q.2 q.1 (List.range (wd.length + 1))) hmem1, ?_⟩
      rw [range_eq_specRow]
      have hgood : Good (List.reverse (c1 :: ([] : List Char))) u1 := by
        have h := hg.child c1 u1 hmem1
        simpa using h
      rw [helper_mem_iff wd dist (sizeOf u1) u1 le_rfl [] c1 hgood w d]
      refine ⟨s1, u, hn', hwu, ?_, ?_, hdle⟩
      · rw [hw_eq]; simp
      · rw [hd, hw_eq, ← lev_reverse wd (c1 :: s1), List.reverse_cons]

/-!
## Aggregation and selection (`check` steps 5 and 6)
-/

/-- **C2 core**: when started at the smallest recorded distance, the single
left-to-right scan keeps exactly the matches whose distance equals that
minimum, in discovery order. -/
theorem filterLoop_min (res : List ((List Char) × Nat)) (m0 : Nat)
    (hm : ∀ p ∈ res, m0 ≤ p.2) :
    filterLoop res m0 = (res.filter (fun p => p.2 == m0)).map Prod.fst := by
  induction res with
  | nil => rfl
  | cons q rest ih =>
    cases q with
    | mk w0 d0 =>
      rw [filterLoop]
      have hrest : ∀ p ∈ rest, m0 ≤ p.2 := fun p hp => hm p (List.mem_cons_of_mem _ hp)
      by_cases hd : d0 ≤ m0
      · have hd0 : d0 = m0 := le_antisymm hd (hm (w0, d0) (List.mem_cons_self _ _))
        rw [if_pos hd, hd0, List.filter_cons]
        simp only [beq_self_eq_true, if_pos]
        rw [List.map_cons, ih hrest]
      · rw [if_neg hd, List.filter_cons]
        have hne : ((w0, d0).2 == m0) = false := by
          simp only [beq_eq_false_iff_ne, ne_eq]
          intro he
          exact hd (le_of_eq he)
        rw [hne]
        simp only [Bool.false_eq_true, if_neg, ite_false]
        exact ih hrest

/-- The aggregation and selection policy exactly as the specification states
it: keep the matches tied for the smallest recorded distance in discovery
order; with no matches return the sentinel; otherwise the last filtered
candidate is the initial primary and, when at least one other candidate
remains, the first earlier candidate sharing the input's first character is
promoted to primary and removed from the alternates. -/
def specSelect (wd : List Char) (res : List ((List Char) × Nat)) :
    (List Char) × List (List Char) :=
  let minD := listMin (res.map Prod.snd)
  let cands := (res.filter (fun p => p.2 == minD)).map Prod.fst
  if cands = [] then (SENTINEL, [])
  else
    let primary0 := cands.getLastD []
    let pool := cands.dropLast
    if pool = [] then (primary0, [])
    else
      match pool.find? (fun x => x.head? == wd.head?) with
      | some x => (x, pool.erase x)
      | none => (primary0, pool)

theorem selectOut_cases (wd : List Char) (temp : List (List Char)) :
    selectOut wd temp =
      if temp = [] then (SENTINEL, [])
      else if temp.dropLast = [] then (temp.getLastD [], [])
      else
        match temp.dropLast.find? (fun x => x.head? == wd.head?) with
        | some x => (x, temp.dropLast.erase x)
        | none => (temp.getLastD [], temp.dropLast) := by
  cases temp with
  | nil => rfl
  | cons a rest =>
    rw [selectOut]
    rw [if_neg (List.cons_ne_nil a rest)]
    by_cases hdl : (a :: rest).dropLast = []
    · rw [if_pos hdl]
      have hlen : ¬ 1 ≤ ((a :: rest).dropLast).length := by
        rw [hdl]; simp
      rw [if_neg hlen, hdl]
    · rw [if_neg hdl]
      have hlen : 1 ≤ ((a :: rest).dropLast).length := by
        cases hq : (a :: rest).dropLast with
        | nil => exact absurd hq hdl
        | cons x xs => simp
      rw [if_pos hlen]

/-- The code's aggregation+selection tail equals the specification's policy. -/
theorem selectOut_eq_specSelect (wd : List Char) (res : List ((List Char) × Nat)) :
    selectOut wd (filterLoop res (listMin (res.map Prod.snd))) = specSelect wd res := by
  have hmin : ∀ p ∈ res, listMin (res.map Prod.snd) ≤ p.2 :=
    fun p hp => listMin_le (List.mem_map_of_mem Prod.snd hp)
  rw [filterLoop_min res _ hmin, selectOut_cases, specSelect]

theorem check_has_word {t : Trie} {input : List Char}
    (h : t.has_word (normWord input) = true) :
    SpellCheck.check t input = (normWord input, []) := by
  simp only [SpellCheck.check]
  rw [if_pos h]

theorem check_not_has_word {t : Trie} {input : List Char}
    (h : t.has_word (normWord input) = false) :
    SpellCheck.check t input =
      specSelect (collapse (normWord input))
        (rootMatches t (collapse (normWord input))
          (vowelCount (collapse (normWord input)))) := by
  simp only [SpellCheck.check]
  rw [if_neg (by rw [h]; simp)]
  exact selectOut_eq_specSelect _ _

/-!
## `generate_word`
-/

/-- `generate_word` walks to some reachable childless node and returns its
stored word. -/
theorem generate_word_reaches : ∀ (N : Nat) (t : Trie), sizeOf t ≤ N →
    ∀ (p0 : List Char), Good p0 t → ∀ (ks : Nat → Nat) (i : Nat),
    ∃ p u, NodeAt t p u ∧ u.children = [] ∧ Trie.generate_word t ks i = u.word := by
  intro N
  induction N with
  | zero =>
    intro t hle
    have := sizeOf_trie_pos t
    omega
  | succ N ih =>
    intro t hle p0 hg ks i
    rw [Trie.generate_word]
    cases hch : t.children with
    | nil => exact ⟨[], t, NodeAt.refl t, hch, rfl⟩
    | cons q qs =>
      have hpick := pickChild_mem q qs (ks i % (q :: qs).length)
      have hmem : pickChild q qs (ks i % (q :: qs).length) ∈ t.children := by
        rw [hch]; exact hpick
      have hpe : ((pickChild q qs (ks i % (q :: qs).length)).1,
          (pickChild q qs (ks i % (q :: qs).length)).2) ∈ t.children := by
        rw [Prod.mk.eta]; exact hmem
      have hgood : Good (p0 ++ [(pickChild q qs (ks i % (q :: qs).length)).1])
          (pickChild q qs (ks i % (q :: qs).length)).2 := hg.child _ _ hpe
      have hsz : sizeOf (pickChild q qs (ks i % (q :: qs).length)).2 ≤ N := by
        have := sizeOf_child_lt hmem
        omega
      obtain ⟨p, u, hn, hleaf, hgen⟩ := ih _ hsz _ hgood ks (i + 1)
      exact ⟨(pickChild q qs (ks i % (q :: qs).length)).1 :: p, u,
        NodeAt.step (lookupChild_of_mem_nodup hg.keysNodup hpe) hn, hleaf, hgen⟩

theorem buildTrie_nil : buildTrie [] = Trie.mk none [] := rfl

theorem generate_word_empty (ks : Nat → Nat) (i : Nat) :
    (buildTrie []).generate_word ks i = none := by
  obtain ⟨p, u, hn, hleaf, hgen⟩ := generate_word_reaches (sizeOf (buildTrie []))
    (buildTrie []) le_rfl [] (good_buildTrie []) ks i
  rw [buildTrie_nil] at hn
  obtain ⟨rfl, rfl⟩ := nodeAt_empty hn
  rw [hgen]
  rfl

/-!
## Normalization on already-normalized words
-/

/-- A lowercase ASCII letter. -/
def isLowerAlpha (c : Char) : Bool := 'a' ≤ c && c ≤ 'z'

theorem lowerChar_id {c : Char} (h : isLowerAlpha c = true) : lowerChar c = c := by
  rw [lowerChar, if_neg]
  intro hb
  simp only [isLowerAlpha, Bool.and_eq_true, decide_eq_true_eq] at hb h
  have hz : ('a' : Char) ≤ 'Z' := le_trans h.1 hb.2
  exact absurd hz (by decide)

theorem isSpaceChar_false_of_lower {c : Char} (h : isLowerAlpha c = true) :
    isSpaceChar c = false := by
  simp only [isLowerAlpha, Bool.and_eq_true, decide_eq_true_eq] at h
  have h1 : c ≠ ' ' := fun he => absurd (he ▸ h.1) (by decide)
  have h2 : c ≠ '\t' := fun he => absurd (he ▸ h.1) (by decide)
  have h3 : c ≠ '\n' := fun he => absurd (he ▸ h.1) (by decide)
  have h4 : c ≠ '\r' := fun he => absurd (he ▸ h.1) (by decide)
  have h5 : c ≠ '\x0b' := fun he => absurd (he ▸ h.1) (by decide)
  have h6 : c ≠ '\x0c' := fun he => absurd (he ▸ h.1) (by decide)
  simp [isSpaceChar, h1, h2, h3, h4, h5, h6]

theorem dropWhile_eq_self_of_all {p : Char → Bool} {l : List Char}
    (h : ∀ c ∈ l, p c = false) : l.dropWhile p = l := by
  cases l with
  | nil => rfl
  | cons a l' =>
    rw [List.dropWhile_cons, h a (List.mem_cons_self _ _)]
    simp

theorem normWord_id {w : List Char} (h : ∀ c ∈ w, isLowerAlpha c = true) :
    normWord w = w := by
  have hlower : toLowerAscii w = w := by
    rw [toLowerAscii]
    induction w with
    | nil => rfl
    | cons a w' ih =>
      rw [List.map_cons, lowerChar_id (h a (List.mem_cons_self _ _)),
        ih (fun c hc => h c (List.mem_cons_of_mem _ hc))]
  have hs : ∀ c ∈ w, isSpaceChar c = false := fun c hc => isSpaceChar_false_of_lower (h c hc)
  rw [normWord, hlower, stripStr, dropWhile_eq_self_of_all hs,
    dropWhile_eq_self_of_all (fun c hc => hs c (List.mem_reverse.mp hc)),
    List.reverse_reverse]

/-!
## `generate_word` on a built dictionary
-/

/-- **C5 core**: on any non-empty dictionary of non-empty words,
`generate_word` returns an inserted word, for every choice sequence. -/
theorem generate_word_valid (ws : List (List Char)) (hne : ws ≠ [])
    (hw : ∀ w ∈ ws, w ≠ []) (ks : Nat → Nat) (i : Nat) :
    ∃ w, (buildTrie ws).generate_word ks i = some w ∧ w ∈ ws := by
  obtain ⟨p, u, hn, hleaf, hgen⟩ := generate_word_reaches (sizeOf (buildTrie ws)) _ le_rfl []
    (good_buildTrie ws) ks i
  have hgood : Good ([] ++ p) u := good_nodeAt (good_buildTrie ws) hn
  have hpne : p ≠ [] := by
    intro hp
    subst hp
    obtain rfl := nodeAt_nil hn
    obtain ⟨w0, hw0⟩ := List.exists_mem_of_ne_nil ws hne
    have hhw : (buildTrie ws).has_word w0 = true :=
      (has_word_buildTrie ws w0).mpr (Or.inr ⟨w0, hw0, List.prefix_refl w0⟩)
    cases hw0c : w0 with
    | nil => exact (hw w0 hw0) hw0c
    | cons c rest =>
      rw [hw0c, Trie.has_word, hleaf] at hhw
      simp [lookupChild] at hhw
  have hwordne : u.word ≠ none := hgood.leaf hleaf (by simpa using hpne)
  obtain ⟨w0, hw0⟩ := Option.ne_none_iff_exists'.mp hwordne
  refine ⟨w0, ?_, ?_⟩
  · rw [hgen, hw0]
  · exact marker_buildTrie_mem hn hw0

/-!
## Claim theorems
-/

theorem root_children_of_mem {ws : List (List Char)} {w0 : List Char} (hmem : w0 ∈ ws)
    (hne : w0 ≠ []) : (buildTrie ws).children ≠ [] := by
  intro hch
  have hhw : (buildTrie ws).has_word w0 = true :=
    (has_word_buildTrie ws w0).mpr (Or.inr ⟨w0, hmem, List.prefix_refl w0⟩)
  cases hc : w0 with
  | nil => exact hne hc
  | cons c rest =>
    rw [hc, Trie.has_word, hch] at hhw
    simp [lookupChild] at hhw

/-- **C1.** For every dictionary (of non-empty inserted words) and every input
whose normalized form is not an exact path match, the bounded traversal
records exactly the pairs `(w, d)` such that `w` is the `terminalWord` of some
trie node, `d` is the Levenshtein distance between the collapsed input word
and `w`, and `d ≤ maxDistance` (the vowel count of the collapsed word); the
pruning never omits a within-budget word and every recorded distance is the
true Levenshtein distance. -/
theorem traversal_records_exactly (ws : List (List Char)) (input : List Char)
    (hws : ∀ v ∈ ws, v ≠ [])
    (hnm : (buildTrie ws).has_word (normWord input) = false) :
    ∀ (w : List Char) (d : Nat),
      ((w, d) ∈ rootMatches (buildTrie ws) (collapse (normWord input))
          (vowelCount (collapse (normWord input))) ↔
        (TerminalWord (buildTrie ws) w ∧
          d = lev (collapse (normWord input)) w ∧
          d ≤ vowelCount (collapse (normWord input)))) := by
  intro w d
  exact rootMatches_iff _ _ _ (good_buildTrie ws) (root_word_buildTrie ws hws) w d

theorem traversal_records_exactly_witness :
    (∀ v ∈ [['a', 'b']], v ≠ []) ∧
    (buildTrie [['a', 'b']]).has_word (normWord ['z']) = false ∧
    ((['a', 'b'], 1) ∈ rootMatches (buildTrie [['a', 'b']]) (collapse (normWord ['z']))
        (vowelCount (collapse (normWord ['z']))) ↔
      (TerminalWord (buildTrie [['a', 'b']]) ['a', 'b'] ∧
        1 = lev (collapse (normWord ['z'])) ['a', 'b'] ∧
        1 ≤ vowelCount (collapse (normWord ['z'])))) :=
  ⟨by decide, by decide,
    traversal_records_exactly [['a', 'b']] ['z'] (by decide) (by decide) ['a', 'b'] 1⟩

/-- **C2.** For every run of `check` that reaches aggregation (the normalized
word is not a path match), the result is exactly the specified policy: the
candidates are the recorded matches tied for the smallest recorded distance,
in discovery order; with no matches the sentinel with empty alternates;
otherwise the last filtered candidate is primary, except that when at least
one other candidate remains the first earlier candidate sharing the collapsed
input's first character is promoted and removed from the alternates, which
keep their order. -/
theorem check_aggregation_policy (t : Trie) (input : List Char)
    (h : t.has_word (normWord input) = false) :
    SpellCheck.check t input =
      specSelect (collapse (normWord input))
        (rootMatches t (collapse (normWord input))
          (vowelCount (collapse (normWord input)))) :=
  check_not_has_word h

theorem check_aggregation_policy_witness :
    (buildTrie [['a', 'b']]).has_word (normWord ['a', 'c']) = false ∧
    SpellCheck.check (buildTrie [['a', 'b']]) ['a', 'c'] =
      specSelect (collapse (normWord ['a', 'c']))
        (rootMatches (buildTrie [['a', 'b']]) (collapse (normWord ['a', 'c']))
          (vowelCount (collapse (normWord ['a', 'c'])))) :=
  ⟨by decide, check_aggregation_policy (buildTrie [['a', 'b']]) ['a', 'c'] (by decide)⟩

/-- **C3.** Every inserted word (non-empty, lowercase letters) is returned by
`check` as its own suggestion with no alternates. -/
theorem check_exact_inserted (ws : List (List Char)) (w : List Char)
    (hmem : w ∈ ws) (hne : w ≠ []) (hlow : ∀ c ∈ w, isLowerAlpha c = true) :
    SpellCheck.check (buildTrie ws) w = (w, []) := by
  have hnorm : normWord w = w := normWord_id hlow
  have hhw : (buildTrie ws).has_word (normWord w) = true := by
    rw [hnorm]
    exact (has_word_buildTrie ws w).mpr (Or.inr ⟨w, hmem, List.prefix_refl w⟩)
  rw [check_has_word hhw, hnorm]

theorem check_exact_inserted_witness :
    ['a', 'b'] ∈ [['a', 'b'], ['c']] ∧ (['a', 'b'] : List Char) ≠ [] ∧
    (∀ c ∈ ['a', 'b'], isLowerAlpha c = true) ∧
    SpellCheck.check (buildTrie [['a', 'b'], ['c']]) ['a', 'b'] = (['a', 'b'], []) :=
  ⟨by decide, by decide, by decide,
    check_exact_inserted [['a', 'b'], ['c']] ['a', 'b'] (by decide) (by decide) (by decide)⟩

/-- **C4.** `has_word` returns true iff following the word's characters from
the root never hits a missing child (a path exists); in particular any initial
segment of an inserted word — even one with no terminal marker — is reported
present. -/
theorem containsExact_path_semantics :
    (∀ (t : Trie) (p : List Char), t.has_word p = true ↔ ∃ u, NodeAt t p u) ∧
    (∀ (ws : List (List Char)) (w p q : List Char), w ∈ ws → p ++ q = w →
      (buildTrie ws).has_word p = true) := by
  constructor
  · exact has_word_iff_nodeAt
  · intro ws w p q hmem hpq
    exact (has_word_buildTrie ws p).mpr (Or.inr ⟨w, hmem, ⟨q, hpq⟩⟩)

theorem containsExact_path_semantics_witness :
    ['a', 'b'] ∈ [['a', 'b']] ∧ ['a'] ++ ['b'] = ['a', 'b'] ∧
    (buildTrie [['a', 'b']]).has_word ['a'] = true :=
  ⟨by decide, by decide,
    containsExact_path_semantics.2 [['a', 'b']] ['a', 'b'] ['a'] ['b'] (by decide) (by decide)⟩

/-- **C5.** On a non-empty dictionary of non-empty words, and for every
sequence of random child choices, `generate_word` returns an inserted word:
it is an exact member (`has_word` round-trip) and re-inserting it changes no
membership; on the empty dictionary it returns `none`. -/
theorem sampleRandomWord_valid :
    (∀ (ws : List (List Char)) (ks : Nat → Nat) (i : Nat), ws ≠ [] →
      (∀ w ∈ ws, w ≠ []) →
      ∃ w, (buildTrie ws).generate_word ks i = some w ∧ w ∈ ws ∧
        (buildTrie ws).has_word w = true ∧
        (∀ v, ((buildTrie ws).insert w).has_word v = (buildTrie ws).has_word v)) ∧
    (∀ (ks : Nat → Nat) (i : Nat), (buildTrie []).generate_word ks i = none) := by
  constructor
  · intro ws ks i hne hw
    obtain ⟨w, hgen, hmem⟩ := generate_word_valid ws hne hw ks i
    refine ⟨w, hgen, hmem, ?_, ?_⟩
    · exact (has_word_buildTrie ws w).mpr (Or.inr ⟨w, hmem, List.prefix_refl w⟩)
    · intro v
      rw [insert_existing hmem]
  · exact generate_word_empty

theorem sampleRandomWord_valid_witness :
    ([['a', 'b']] : List (List Char)) ≠ [] ∧ (∀ w ∈ [['a', 'b']], w ≠ []) ∧
    (∃ w, (buildTrie [['a', 'b']]).generate_word (fun _ => 0) 0 = some w ∧
      w ∈ [['a', 'b']] ∧ (buildTrie [['a', 'b']]).has_word w = true ∧
      (∀ v, ((buildTrie [['a', 'b']]).insert w).has_word v =
        (buildTrie [['a', 'b']]).has_word v)) :=
  ⟨by decide, by decide,
    sampleRandomWord_valid.1 [['a', 'b']] (fun _ => 0) 0 (by decide) (by decide)⟩

/-- **C6.** For the same collapsed word, the bounded traversal with a larger
`maxDistance` records a superset of the matches recorded with a smaller one
(so more vowels in the normalized input never lose matches). -/
theorem budget_monotone (t : Trie) (wd : List Char) (d1 d2 : Nat) (h : d1 ≤ d2)
    (x : (List Char) × Nat) (hx : x ∈ rootMatches t wd d1) : x ∈ rootMatches t wd d2 :=
  rootMatches_mono t wd h hx

theorem rootMatches_concrete :
    (['a'], 0) ∈ rootMatches (buildTrie [['a']]) ['a'] 0 := by
  rw [rootMatches]
  rw [show (buildTrie [['a']]).children = [('a', Trie.mk (some ['a']) [])] from rfl]
  rw [List.map_cons, List.map_nil]
  refine List.mem_flatten.mpr ⟨_, List.mem_cons_self _ _, ?_⟩
  rw [helper_eq]
  apply List.mem_append_left
  rw [mem_hereList]
  exact ⟨['a'], rfl, by decide, by decide, by decide⟩

theorem budget_monotone_witness :
    (0 : Nat) ≤ 1 ∧ (['a'], 0) ∈ rootMatches (buildTrie [['a']]) ['a'] 0 ∧
    (['a'], 0) ∈ rootMatches (buildTrie [['a']]) ['a'] 1 :=
  ⟨by decide, rootMatches_concrete,
    budget_monotone (buildTrie [['a']]) ['a'] 0 1 (by decide) (['a'], 0)
      rootMatches_concrete⟩

/-- **C8.** After any sequence of insertions of non-empty words: the stored
word of every reachable node equals the root-to-node path, and a reachable
childless node with no stored word can only be the root of the empty
dictionary. -/
theorem trie_invariant_holds (ws : List (List Char)) (hws : ∀ w ∈ ws, w ≠ [])
    (p : List Char) (u : Trie) (hn : NodeAt (buildTrie ws) p u) :
    (∀ w, u.word = some w → w = p) ∧
    (u.children = [] → u.word = none → p = [] ∧ ws = []) := by
  have hgood : Good ([] ++ p) u := good_nodeAt (good_buildTrie ws) hn
  constructor
  · intro w hw
    simpa using hgood.word_eq w hw
  · intro hch hwn
    by_cases hp : p = []
    · subst hp
      obtain rfl := nodeAt_nil hn
      refine ⟨rfl, ?_⟩
      by_contra hne
      obtain ⟨w0, hw0⟩ := List.exists_mem_of_ne_nil ws hne
      exact root_children_of_mem hw0 (hws w0 hw0) hch
    · exact absurd hwn (hgood.leaf hch (by simpa using hp))

theorem trie_invariant_holds_witness :
    (∀ w ∈ [['a', 'b']], w ≠ []) ∧
    ((∀ w, (buildTrie [['a', 'b']]).word = some w → w = []) ∧
      ((buildTrie [['a', 'b']]).children = [] → (buildTrie [['a', 'b']]).word = none →
        ([] : List Char) = [] ∧ [['a', 'b']] = [])) :=
  ⟨by decide,
    trie_invariant_holds [['a', 'b']] (by decide) [] (buildTrie [['a', 'b']])
      (NodeAt.refl _)⟩

/-- **C9.** Inserting an already-present word leaves the trie structure
unchanged while the word counter is incremented again; the counter is never
decremented by any operation (insertion, the only counter-touching operation,
always increments). -/
theorem insert_duplicate_count (ws : List (List Char)) (w : List Char) (hmem : w ∈ ws) :
    (dictInsert (buildTrie ws, ws.length) w).1 = buildTrie ws ∧
    (dictInsert (buildTrie ws, ws.length) w).2 = ws.length + 1 ∧
    (∀ (d : Dict) (v : List Char), d.2 ≤ (dictInsert d v).2) := by
  refine ⟨?_, rfl, ?_⟩
  · exact insert_existing hmem
  · intro d v
    simp [dictInsert]

theorem insert_duplicate_count_witness :
    ['a'] ∈ [['a'], ['b']] ∧
    ((dictInsert (buildTrie [['a'], ['b']], 2) ['a']).1 = buildTrie [['a'], ['b']] ∧
      (dictInsert (buildTrie [['a'], ['b']], 2) ['a']).2 = 2 + 1 ∧
      (∀ (d : Dict) (v : List Char), d.2 ≤ (dictInsert d v).2)) :=
  ⟨by decide, insert_duplicate_count [['a'], ['b']] ['a'] (by decide)⟩

/-- **C10.** `has_word` of the empty string is true on every trie, so `check`
of any input that normalizes to the empty string returns the empty string
with no alternates through the exact-match early return (the later
first-character selection code is never reached). -/
theorem empty_normalized_early_return (t : Trie) (input : List Char)
    (h : normWord input = []) :
    t.has_word ([] : List Char) = true ∧ SpellCheck.check t input = ([], []) := by
  refine ⟨rfl, ?_⟩
  have hhw : t.has_word (normWord input) = true := by
    rw [h]; rfl
  rw [check_has_word hhw, h]

theorem empty_normalized_early_return_witness :
    normWord [' '] = [] ∧
    ((buildTrie [['a']]).has_word ([] : List Char) = true ∧
      SpellCheck.check (buildTrie [['a']]) [' '] = ([], [])) :=
  ⟨by decide, empty_normalized_early_return (buildTrie [['a']]) [' '] (by decide)⟩
